import Mathlib

/-!
# Verification of the stateright two-phase-commit example and actor module

This file gives a shallow embedding, in Lean 4, of

* `examples/2pc.rs` — the two-phase-commit model (`TwoPhaseSys`): its state,
  actions, transition function and properties, together with an exact
  characterization of its reachable state space;
* `src/actor.rs` — the actor abstraction (`ActorInput`, `ActorOutput`,
  `ActorResult`, the `ClockActor` documentation example) and the wire
  contract (`serialize` / `deserialize`);
* parts of the model-checking engine that are described by the design
  document but whose code is not part of the visible sources (the search
  engine, the actor/network adapter, the `serde_json` encoding); these are
  modelled from the specification and marked as such in their doc comments.

Rust `usize` values are modelled as `Nat` (the examples never exercise the
64-bit wrap-around), `u32` values as `Nat` together with explicit reduction
modulo `2 ^ 32` where an arithmetic operation can overflow, `Vec<T>` as
`List T`, and `BTreeSet<T>` as `Finset T` (a `BTreeSet` compares equal
exactly when the two sets hold the same elements).  A `Vec` index write
`v[i] = x` panics in Rust when `i` is out of bounds; the panic is modelled
explicitly by an `Option` (`none` = panic).
-/

namespace Stateright

namespace TwoPC

/-- Rust: `enum RmState { Working, Prepared, Committed, Aborted }`. -/
inductive RmState where
  | Working
  | Prepared
  | Committed
  | Aborted
deriving DecidableEq, Repr

/-- Rust: `enum TmState { Init, Committed, Aborted }`. -/
inductive TmState where
  | Init
  | Committed
  | Aborted
deriving DecidableEq, Repr

/-- Rust: `enum Message { Prepared { rm: R }, Commit, Abort }` with `R = usize`. -/
inductive Message where
  | Prepared (rm : Nat)
  | Commit
  | Abort
deriving DecidableEq, Repr

/-- Rust: `struct TwoPhaseState { rm_state: Vec<RmState>, tm_state: TmState,
tm_prepared: Vec<bool>, msgs: BTreeSet<Message> }`. -/
@[ext]
structure TwoPhaseState where
  rm_state : List RmState
  tm_state : TmState
  tm_prepared : List Bool
  msgs : Finset Message
deriving DecidableEq

/-- Rust: `Range<usize>` — the half-open range `start..stop` (Rust writes the
upper bound `end`, a Lean keyword). -/
structure RangeUsize where
  start : Nat
  stop : Nat
deriving DecidableEq

/-- Iterating a Rust `Range<usize>` yields `start, start+1, ..., stop-1`. -/
def RangeUsize.toList (r : RangeUsize) : List Nat :=
  List.range' r.start (r.stop - r.start)

/-- Rust: `struct TwoPhaseSys { pub rms: Range<R> }`. -/
structure TwoPhaseSys where
  rms : RangeUsize
deriving DecidableEq

/-- Rust: `enum Action { TmRcvPrepared(R), TmCommit, TmAbort, RmPrepare(R),
RmChooseToAbort(R), RmRcvCommitMsg(R), RmRcvAbortMsg(R) }`. -/
inductive Action where
  | TmRcvPrepared (rm : Nat)
  | TmCommit
  | TmAbort
  | RmPrepare (rm : Nat)
  | RmChooseToAbort (rm : Nat)
  | RmRcvCommitMsg (rm : Nat)
  | RmRcvAbortMsg (rm : Nat)
deriving DecidableEq, Repr

/-- The single initial state built by `init_states`: every resource manager is
`Working`, the transaction manager is `Init`, nothing is prepared and no
message has been sent. -/
def initState (sys : TwoPhaseSys) : TwoPhaseState :=
  { rm_state := sys.rms.toList.map (fun _ => RmState.Working),
    tm_state := TmState.Init,
    tm_prepared := sys.rms.toList.map (fun _ => false),
    msgs := ∅ }

/-- Rust: `fn init_states(&self) -> Vec<Self::State>` of `impl Model for
TwoPhaseSys`. -/
def init_states (sys : TwoPhaseSys) : List TwoPhaseState :=
  [initState sys]

/-- Rust: `fn actions(&self, state, actions)` of `impl Model for TwoPhaseSys`,
returning the pushed actions in push order. -/
def actions (sys : TwoPhaseSys) (state : TwoPhaseState) : List Action :=
  (if state.tm_state = TmState.Init ∧ state.tm_prepared.all (fun p => p) then
    [Action.TmCommit] else [])
  ++ (if state.tm_state = TmState.Init then [Action.TmAbort] else [])
  ++ (sys.rms.toList.map (fun rm =>
        (if state.tm_state = TmState.Init ∧ Message.Prepared rm ∈ state.msgs then
          [Action.TmRcvPrepared rm] else [])
        ++ (if state.rm_state[rm]? = some RmState.Working then
          [Action.RmPrepare rm] else [])
        ++ (if state.rm_state[rm]? = some RmState.Working then
          [Action.RmChooseToAbort rm] else [])
        ++ (if Message.Commit ∈ state.msgs then [Action.RmRcvCommitMsg rm] else [])
        ++ (if Message.Abort ∈ state.msgs then [Action.RmRcvAbortMsg rm] else []))).flatten

/-- The Rust `Vec` index write `v[i] = x`: it panics when `i ≥ v.len()`;
the panic is modelled by `none`. -/
def vecWrite {α : Type} (v : List α) (i : Nat) (x : α) : Option (List α) :=
  if i < v.length then some (v.set i x) else none

/-- Result of running a Rust function that may panic: `panicked` models an
aborted execution (here: a `Vec` index write out of bounds), `ret` a normal
return. -/
inductive PanicOr (α : Type) where
  | panicked
  | ret (val : α)
deriving DecidableEq

/-- Rust: `fn next_state(&self, last_state, action) -> Option<Self::State>` of
`impl Model for TwoPhaseSys`.  The function clones the state, mutates it
according to the action and unconditionally returns `Some`; the `Vec` index
writes `state.tm_prepared[rm] = ...` / `state.rm_state[rm] = ...` panic when
`rm` is out of bounds, which is the `panicked` case here. -/
def next_state (_sys : TwoPhaseSys) (last_state : TwoPhaseState) (action : Action) :
    PanicOr (Option TwoPhaseState) :=
  match action with
  | Action.TmRcvPrepared rm =>
    match vecWrite last_state.tm_prepared rm true with
    | some tp => PanicOr.ret (some { last_state with tm_prepared := tp })
    | none => PanicOr.panicked
  | Action.TmCommit =>
    PanicOr.ret (some { last_state with
      tm_state := TmState.Committed,
      msgs := insert Message.Commit last_state.msgs })
  | Action.TmAbort =>
    PanicOr.ret (some { last_state with
      tm_state := TmState.Aborted,
      msgs := insert Message.Abort last_state.msgs })
  | Action.RmPrepare rm =>
    match vecWrite last_state.rm_state rm RmState.Prepared with
    | some rs => PanicOr.ret (some { last_state with
        rm_state := rs,
        msgs := insert (Message.Prepared rm) last_state.msgs })
    | none => PanicOr.panicked
  | Action.RmChooseToAbort rm =>
    match vecWrite last_state.rm_state rm RmState.Aborted with
    | some rs => PanicOr.ret (some { last_state with rm_state := rs })
    | none => PanicOr.panicked
  | Action.RmRcvCommitMsg rm =>
    match vecWrite last_state.rm_state rm RmState.Committed with
    | some rs => PanicOr.ret (some { last_state with rm_state := rs })
    | none => PanicOr.panicked
  | Action.RmRcvAbortMsg rm =>
    match vecWrite last_state.rm_state rm RmState.Aborted with
    | some rs => PanicOr.ret (some { last_state with rm_state := rs })
    | none => PanicOr.panicked

/-- One edge of the state graph explored by the checker: an action enumerated
by `actions` whose `next_state` returns (without panicking) a successor. -/
def step (sys : TwoPhaseSys) (s s' : TwoPhaseState) : Prop :=
  ∃ a, a ∈ actions sys s ∧ next_state sys s a = PanicOr.ret (some s')

/-- The states discovered by exhaustive exploration: everything reachable from
`init_states` through `step` edges. -/
inductive Reachable (sys : TwoPhaseSys) : TwoPhaseState → Prop where
  | init (s : TwoPhaseState) : s ∈ init_states sys → Reachable sys s
  | step (s s' : TwoPhaseState) : Reachable sys s → step sys s s' → Reachable sys s'

/-- Rust: the predicate of the `"consistent"` `Always` property —
`!state.rm_state.iter().any(|s1| state.rm_state.iter().any(|s2|
s1 == &RmState::Aborted && s2 == &RmState::Committed))`. -/
def consistent (state : TwoPhaseState) : Bool :=
  ! state.rm_state.any (fun s1 => state.rm_state.any (fun s2 =>
      decide (s1 = RmState.Aborted) && decide (s2 = RmState.Committed)))

/-- The system checked by `can_model_2pc`: `TwoPhaseSys { rms: 0..n }`. -/
def sysN (n : Nat) : TwoPhaseSys := { rms := { start := 0, stop := n } }

/-- Modelled from the spec: the search engine (§4.2, breadth-first and
depth-first traversal with fingerprint deduplication) is not among the
visible sources; per the spec both traversals, run to natural termination,
generate exactly the set of distinct states reachable from `init_states`
via enabled actions, deduplicating equal states. -/
def generatedStates (sys : TwoPhaseSys) : Set TwoPhaseState :=
  {s | Reachable sys s}

/-- The indices written by `next_state` for a given action are within the
bounds of the state's vectors (so no `Vec` index write panics). -/
def actionInBounds (s : TwoPhaseState) (a : Action) : Prop :=
  match a with
  | Action.TmRcvPrepared rm => rm < s.tm_prepared.length
  | Action.TmCommit => True
  | Action.TmAbort => True
  | Action.RmPrepare rm => rm < s.rm_state.length
  | Action.RmChooseToAbort rm => rm < s.rm_state.length
  | Action.RmRcvCommitMsg rm => rm < s.rm_state.length
  | Action.RmRcvAbortMsg rm => rm < s.rm_state.length

/-! ### Characterization of the reachable state space of `sysN n`

A reachable state is determined by the transaction manager's phase together
with, per resource manager `i`, the triple of `rm_state[i]`, `tm_prepared[i]`
and whether `Prepared{i}` has been sent.  `RmLocal` packages one such
triple. -/

/-- The part of a `TwoPhaseState` belonging to one resource manager:
its `rm_state` entry, its `tm_prepared` entry and whether its `Prepared`
message is in `msgs`. -/
@[ext]
structure RmLocal where
  st : RmState
  prep : Bool
  msg : Bool
deriving DecidableEq, Repr

/-- Per-resource-manager triples that occur while the transaction manager is
still `Init`: working (nothing sent), prepared (message sent, possibly
received), or spontaneously aborted from `Working`. -/
def allowedInit : List RmLocal :=
  [ { st := RmState.Working, prep := false, msg := false },
    { st := RmState.Prepared, prep := false, msg := true },
    { st := RmState.Prepared, prep := true, msg := true },
    { st := RmState.Aborted, prep := false, msg := false } ]

/-- Per-resource-manager triples once the transaction manager has aborted:
everything possible under `Init`, plus aborting after having prepared. -/
def allowedAborted : List RmLocal :=
  allowedInit ++
  [ { st := RmState.Aborted, prep := false, msg := true },
    { st := RmState.Aborted, prep := true, msg := true } ]

/-- Per-resource-manager triples once the transaction manager has committed:
every resource manager had prepared and been recorded, and each either still
awaits or has received the commit message. -/
def allowedCommitted : List RmLocal :=
  [ { st := RmState.Prepared, prep := true, msg := true },
    { st := RmState.Committed, prep := true, msg := true } ]

/-- The per-resource-manager triples that can occur under a given
transaction-manager phase. -/
def allowed : TmState → List RmLocal
  | TmState.Init => allowedInit
  | TmState.Aborted => allowedAborted
  | TmState.Committed => allowedCommitted

/-- The triple of resource manager `i` in a state, when its vectors are long
enough. -/
def localAt (s : TwoPhaseState) (i : Nat) : Option RmLocal :=
  match s.rm_state[i]?, s.tm_prepared[i]? with
  | some r, some p => some { st := r, prep := p, msg := decide (Message.Prepared i ∈ s.msgs) }
  | _, _ => none

/-- Shape of every state reachable in `sysN n`: the vectors have length `n`,
the `Commit` / `Abort` messages mirror the transaction manager's phase, every
`Prepared` message names a real resource manager, and each resource manager's
triple is one allowed under the current phase. -/
structure Shape (n : Nat) (s : TwoPhaseState) : Prop where
  len_rm : s.rm_state.length = n
  len_tp : s.tm_prepared.length = n
  commit_iff : Message.Commit ∈ s.msgs ↔ s.tm_state = TmState.Committed
  abort_iff : Message.Abort ∈ s.msgs ↔ s.tm_state = TmState.Aborted
  prep_lt : ∀ i : Nat, Message.Prepared i ∈ s.msgs → i < n
  locals : ∀ i r p, s.rm_state[i]? = some r → s.tm_prepared[i]? = some p →
    ({ st := r, prep := p, msg := decide (Message.Prepared i ∈ s.msgs) } : RmLocal) ∈
      allowed s.tm_state

/-- Number of transition steps needed to produce a triple (used to build a
path back to the initial state). -/
def RmLocal.weight : RmLocal → Nat
  | { st := RmState.Working, prep := _, msg := _ } => 0
  | { st := RmState.Prepared, prep := false, msg := _ } => 1
  | { st := RmState.Prepared, prep := true, msg := _ } => 2
  | { st := RmState.Aborted, prep := false, msg := false } => 1
  | { st := RmState.Aborted, prep := false, msg := true } => 2
  | { st := RmState.Aborted, prep := true, msg := _ } => 3
  | { st := RmState.Committed, prep := _, msg := _ } => 3

/-- Steps needed to move the transaction manager out of `Init`. -/
def tmWeight : TmState → Nat
  | TmState.Init => 0
  | TmState.Committed => 1
  | TmState.Aborted => 1

/-- Weight of resource manager `i` in a state (`0` when out of range). -/
def weightAt (s : TwoPhaseState) (i : Nat) : Nat :=
  match localAt s i with
  | some l => l.weight
  | none => 0

/-- Distance measure of a state: total number of steps needed to build it
from the initial state. -/
def measureTP (n : Nat) (s : TwoPhaseState) : Nat :=
  tmWeight s.tm_state + ∑ i ∈ Finset.range n, weightAt s i

/-- The `Commit` / `Abort` content of `msgs` as a function of the phase. -/
def tmMsgs : TmState → Finset Message
  | TmState.Init => ∅
  | TmState.Committed => {Message.Commit}
  | TmState.Aborted => {Message.Abort}

/-- The `Prepared` messages recorded in a list of triples. -/
def prepMsgs (locals : List RmLocal) : Finset Message :=
  ((List.range locals.length).filterMap (fun i =>
    if locals[i]?.map RmLocal.msg = some true then some (Message.Prepared i)
    else none)).toFinset

/-- The state assembled from a phase and a list of per-resource-manager
triples. -/
def stateOf (t : TmState) (locals : List RmLocal) : TwoPhaseState :=
  { rm_state := locals.map RmLocal.st,
    tm_state := t,
    tm_prepared := locals.map RmLocal.prep,
    msgs := prepMsgs locals ∪ tmMsgs t }

/-- The list of per-resource-manager triples of a state. -/
def localsOf (n : Nat) (s : TwoPhaseState) : List RmLocal :=
  (List.range n).map (fun i =>
    { st := s.rm_state[i]?.getD RmState.Working,
      prep := s.tm_prepared[i]?.getD false,
      msg := decide (Message.Prepared i ∈ s.msgs) })

/-- All length-`k` lists over a fixed list of options. -/
def allLists (opts : List RmLocal) : Nat → List (List RmLocal)
  | 0 => [[]]
  | k+1 => opts.flatMap (fun x => (allLists opts k).map (fun l => x :: l))

/-- Explicit enumeration of the reachable states of `sysN n`: all assemblies
of a phase with allowed triples. -/
def bigList (n : Nat) : List TwoPhaseState :=
  ((allLists allowedInit n).map (stateOf TmState.Init))
  ++ ((allLists allowedAborted n).map (stateOf TmState.Aborted))
  ++ ((allLists allowedCommitted n).map (stateOf TmState.Committed))

end TwoPC

namespace Actor

/-- Rust: `enum ActorInput<Id, Msg> { Deliver { src: Id, msg: Msg } }`. -/
inductive ActorInput (Id Msg : Type) where
  | Deliver (src : Id) (msg : Msg)
deriving DecidableEq

/-- Rust: `enum ActorOutput<Id, Msg> { Send { dst: Id, msg: Msg } }`. -/
inductive ActorOutput (Id Msg : Type) where
  | Send (dst : Id) (msg : Msg)
deriving DecidableEq

/-- Rust: `struct ActorOutputVec<Id, Msg>(pub Vec<ActorOutput<Id, Msg>>)`. -/
structure ActorOutputVec (Id Msg : Type) where
  outputs : List (ActorOutput Id Msg)
deriving DecidableEq

/-- Rust: `ActorOutputVec::send` — pushes `Send { dst, msg }`. -/
def ActorOutputVec.send {Id Msg : Type} (v : ActorOutputVec Id Msg) (dst : Id) (msg : Msg) :
    ActorOutputVec Id Msg :=
  { outputs := v.outputs ++ [ActorOutput.Send dst msg] }

/-- Rust: `struct ActorResult<Id, Msg, State> { state, outputs }`. -/
structure ActorResult (Id Msg State : Type) where
  state : State
  outputs : ActorOutputVec Id Msg
deriving DecidableEq

/-- The `u32` modulus: `ClockActor` messages and states are `u32` values. -/
def u32Mod : Nat := 2 ^ 32

/-- Rust: `ClockActor::start` — `ActorResult::start(0, |_outputs| {})`, the
state `0` with no outputs. -/
def ClockActor.start {Id : Type} : ActorResult Id Nat Nat :=
  { state := 0, outputs := { outputs := [] } }

/-- Rust: `ClockActor::advance`.  When the delivered `timestamp` exceeds the
current state, `ActorResult::advance` clones the state and the mutation sets
it to `timestamp` and sends `timestamp + 1` back to the source (`u32`
addition, so the sum wraps modulo `2 ^ 32`); otherwise the actor declines
with `None`. -/
def ClockActor.advance {Id : Type} (state : Nat) (input : ActorInput Id Nat) :
    Option (ActorResult Id Nat Nat) :=
  match input with
  | ActorInput.Deliver src timestamp =>
    if state < timestamp then
      some { state := timestamp,
             outputs := ActorOutputVec.send { outputs := [] } src ((timestamp + 1) % u32Mod) }
    else none

/-- Envelope of the actor adapter (spec §3): `{ src, dst, msg }`, actors being
addressed by their index in the system's actor list. -/
structure Envelope (Msg : Type) where
  src : Nat
  dst : Nat
  msg : Msg
deriving DecidableEq

/-- Rust: `enum LossyNetwork { Yes, No }`. -/
inductive LossyNetwork where
  | Yes
  | No
deriving DecidableEq

/-- One actor of a system: the `Actor` trait object seen by the adapter
(`start` and `advance`; the wire methods play no role in model checking). -/
structure ActorImpl (Msg St : Type) where
  start : ActorResult Nat Msg St
  advance : St → ActorInput Nat Msg → Option (ActorResult Nat Msg St)

/-- The `ClockActor` viewed as an actor of a system (`Id` instantiated at the
actor index). -/
def clockActorImpl : ActorImpl Nat Nat :=
  { start := ClockActor.start, advance := ClockActor.advance }

/-- Rust: `struct ActorSystem { actors, init_network, lossy_network }`. -/
structure ActorSystem (Msg St : Type) where
  actors : List (ActorImpl Msg St)
  init_network : List (Envelope Msg)
  lossy_network : LossyNetwork

/-- The model state of an actor system (spec §4.5): the per-actor states and
the multiset of in-flight envelopes. -/
structure ActorSystemSnapshot (Msg St : Type) where
  actor_states : List St
  network : Multiset (Envelope Msg)
deriving DecidableEq

/-- The envelopes produced by the outputs of actor `src`. -/
def outputEnvelopes {Msg : Type} (src : Nat) (outs : List (ActorOutput Nat Msg)) :
    List (Envelope Msg) :=
  outs.map (fun o => match o with
    | ActorOutput.Send dst msg => { src := src, dst := dst, msg := msg })

/-- Modelled from the spec: `init_states` of the actor adapter (§4.5, its code
`src/actor/model.rs` is not among the visible sources) — each actor starts in
its `start` state, and the network is seeded with `init_network` plus the
envelopes emitted by the actors' start outputs. -/
def ActorSystem.init_state {Msg St : Type} (sys : ActorSystem Msg St) :
    ActorSystemSnapshot Msg St :=
  { actor_states := sys.actors.map (fun a => a.start.state),
    network := ((sys.init_network ++
      (sys.actors.enum.map (fun p => outputEnvelopes p.1 p.2.start.outputs.outputs)).flatten :
        List (Envelope Msg)) : Multiset (Envelope Msg)) }

/-- Modelled from the spec: the `deliver` action of the actor adapter (§4.5,
its code `src/actor/model.rs` is not among the visible sources) — for an
envelope in the network, invoke the destination actor's `advance`; when it
returns a result, replace that actor's state, remove the delivered envelope
and insert the emitted outputs; when it declines, there is no successor. -/
def deliverStep {Msg St : Type} [DecidableEq Msg] (sys : ActorSystem Msg St)
    (s : ActorSystemSnapshot Msg St) (env : Envelope Msg) :
    Option (ActorSystemSnapshot Msg St) :=
  if env ∈ s.network then
    match sys.actors[env.dst]?, s.actor_states[env.dst]? with
    | some actor, some st =>
      match actor.advance st (ActorInput.Deliver env.src env.msg) with
      | some res =>
        some { actor_states := s.actor_states.set env.dst res.state,
               network := s.network.erase env +
                 ((outputEnvelopes env.dst res.outputs.outputs : List (Envelope Msg)) :
                   Multiset (Envelope Msg)) }
      | none => none
    | _, _ => none
  else none

/-- Modelled from the spec: the `drop` action of the actor adapter (§4.5) —
only available on a lossy network; it removes the envelope with no other
effect. -/
def dropStep {Msg St : Type} [DecidableEq Msg] (sys : ActorSystem Msg St)
    (s : ActorSystemSnapshot Msg St) (env : Envelope Msg) :
    Option (ActorSystemSnapshot Msg St) :=
  if sys.lossy_network = LossyNetwork.Yes ∧ env ∈ s.network then
    some { actor_states := s.actor_states, network := s.network.erase env }
  else none

/-- Snapshots reachable in exactly `k` transitions of the adapter model. -/
inductive SysReachableN {Msg St : Type} [DecidableEq Msg] (sys : ActorSystem Msg St) :
    Nat → ActorSystemSnapshot Msg St → Prop where
  | refl : SysReachableN sys 0 sys.init_state
  | deliver (k : Nat) (s : ActorSystemSnapshot Msg St) (env : Envelope Msg)
      (s' : ActorSystemSnapshot Msg St) :
      SysReachableN sys k s → deliverStep sys s env = some s' → SysReachableN sys (k+1) s'
  | drop (k : Nat) (s : ActorSystemSnapshot Msg St) (env : Envelope Msg)
      (s' : ActorSystemSnapshot Msg St) :
      SysReachableN sys k s → dropStep sys s env = some s' → SysReachableN sys (k+1) s'

/-- The system of the `ClockActor` documentation example: two clock actors,
one seeded envelope `{ src: 1, dst: 0, msg: 1 }`, and — as written in the
source, `lossy_network: LossyNetwork::Yes` — a lossy network. -/
def clockSys : ActorSystem Nat Nat :=
  { actors := [clockActorImpl, clockActorImpl],
    init_network := [{ src := 1, dst := 0, msg := 1 }],
    lossy_network := LossyNetwork.Yes }

/-- The property checked in the documentation example:
`|sys, snapshot| snapshot.actor_states.iter().all(|s| **s < 3)`. -/
def clockProperty (snapshot : ActorSystemSnapshot Nat Nat) : Bool :=
  snapshot.actor_states.all (fun s => decide (s < 3))

end Actor

namespace Wire

/-- Little-endian base-10 digits, by fuel-based recursion so that concrete
values reduce inside the kernel; `toDecimal` below supplies enough fuel. -/
def toDecimalAux : Nat → Nat → List Nat
  | 0, _ => []
  | _+1, 0 => []
  | fuel+1, n+1 => ((n+1) % 10) :: toDecimalAux fuel ((n+1) / 10)

/-- Little-endian base-10 digits of `n` (equals `Nat.digits 10 n`). -/
def toDecimal (n : Nat) : List Nat := toDecimalAux n n

/-- Modelled from the spec: the default wire encoding of the actor trait
(`Actor::serialize`, which delegates to `serde_json::to_vec`; the `serde_json`
crate is not part of this repository), restricted to the message type the
repository's example actor uses (`u32`): the canonical decimal text — the
bytes of the digits of `msg`, most significant first, `"0"` for zero.
Serialization of an integer never fails. -/
def serialize (msg : Nat) : List Nat :=
  if msg = 0 then [48] else (toDecimal msg).reverse.map (fun d => d + 48)

/-- The decoding failures `serde_json::from_slice::<u32>` can report. -/
inductive DecodeError where
  | eofWhileParsing
  | invalidNumber
  | numberOutOfRange
deriving DecidableEq, Repr

/-- ASCII digit test: `b'0' ≤ b ≤ b'9'`. -/
def isDigitByte (b : Nat) : Bool := decide (48 ≤ b) && decide (b ≤ 57)

/-- Modelled from the spec: the default wire decoding of the actor trait
(`Actor::deserialize`, which delegates to `serde_json::from_slice`; the
`serde_json` crate is not part of this repository), restricted to the message
type the repository's example actor uses (`u32`): a decimal number with no
leading zero whose value fits in a `u32`; anything else is a typed decoding
error, never a panic. -/
def deserialize (bytes : List Nat) : Except DecodeError Nat :=
  if bytes = [] then Except.error DecodeError.eofWhileParsing
  else if bytes.all isDigitByte = false then Except.error DecodeError.invalidNumber
  else if bytes.head? = some 48 ∧ bytes.length ≠ 1 then Except.error DecodeError.invalidNumber
  else if Nat.ofDigits 10 ((bytes.map (fun b => b - 48)).reverse) < 2 ^ 32 then
    Except.ok (Nat.ofDigits 10 ((bytes.map (fun b => b - 48)).reverse))
  else Except.error DecodeError.numberOutOfRange

end Wire

end Stateright


namespace Stateright

namespace TwoPC

theorem mem_ite_singleton {α : Type} {a x : α} {c : Prop} [Decidable c] :
    (a ∈ if c then [x] else []) ↔ c ∧ a = x := by
  split <;> simp_all

theorem vecWrite_of_lt {α : Type} {v : List α} {i : Nat} (x : α) (h : i < v.length) :
    vecWrite v i x = some (v.set i x) := by
  simp [vecWrite, h]

theorem vecWrite_eq_some {α : Type} {v w : List α} {i : Nat} {x : α}
    (h : vecWrite v i x = some w) : i < v.length ∧ w = v.set i x := by
  unfold vecWrite at h
  split at h
  · exact ⟨by assumption, (Option.some_inj.mp h).symm⟩
  · exact absurd h (by simp)

theorem set_of_getElem? {α : Type} {l : List α} {i : Nat} {a : α}
    (h : l[i]? = some a) : l.set i a = l := by
  have hi : i < l.length := by
    by_contra hi
    rw [List.getElem?_eq_none (Nat.le_of_not_lt hi)] at h
    cases h
  apply List.ext_getElem?
  intro j
  rw [List.getElem?_set]
  by_cases hij : i = j
  · subst hij
    simp [hi, h]
  · simp [hij]

theorem sysN_toList (n : Nat) : (sysN n).rms.toList = List.range n := by
  simp [sysN, RangeUsize.toList, List.range_eq_range']

theorem mem_actions {sys : TwoPhaseSys} {s : TwoPhaseState} {a : Action} :
    a ∈ actions sys s ↔
      (a = Action.TmCommit ∧ s.tm_state = TmState.Init ∧ s.tm_prepared.all (fun p => p) = true) ∨
      (a = Action.TmAbort ∧ s.tm_state = TmState.Init) ∨
      (∃ rm, rm ∈ sys.rms.toList ∧
        ((a = Action.TmRcvPrepared rm ∧ s.tm_state = TmState.Init ∧
            Message.Prepared rm ∈ s.msgs) ∨
         (a = Action.RmPrepare rm ∧ s.rm_state[rm]? = some RmState.Working) ∨
         (a = Action.RmChooseToAbort rm ∧ s.rm_state[rm]? = some RmState.Working) ∨
         (a = Action.RmRcvCommitMsg rm ∧ Message.Commit ∈ s.msgs) ∨
         (a = Action.RmRcvAbortMsg rm ∧ Message.Abort ∈ s.msgs))) := by
  simp only [actions, List.mem_append, List.mem_flatten, List.mem_map, mem_ite_singleton]
  constructor
  · rintro ((⟨⟨h1, h2⟩, rfl⟩ | ⟨h1, rfl⟩) | ⟨l, ⟨rm, hrm, rfl⟩, hmem⟩)
    · exact Or.inl ⟨rfl, h1, h2⟩
    · exact Or.inr (Or.inl ⟨rfl, h1⟩)
    · refine Or.inr (Or.inr ⟨rm, hrm, ?_⟩)
      simp only [List.mem_append, mem_ite_singleton] at hmem
      tauto
  · rintro (⟨rfl, h1, h2⟩ | ⟨rfl, h1⟩ | ⟨rm, hrm, hcase⟩)
    · exact Or.inl (Or.inl ⟨⟨h1, h2⟩, rfl⟩)
    · exact Or.inl (Or.inr ⟨h1, rfl⟩)
    · refine Or.inr ⟨_, ⟨rm, hrm, rfl⟩, ?_⟩
      simp only [List.mem_append, mem_ite_singleton]
      tauto

theorem shape_init (n : Nat) : Shape n (initState (sysN n)) := by
  constructor
  · simp [initState, sysN_toList]
  · simp [initState, sysN_toList]
  · simp [initState]
  · simp [initState]
  · intro i h
    simp [initState] at h
  · intro i r p hr hp
    simp only [initState, sysN_toList] at hr hp ⊢
    have hrW : r = RmState.Working := by
      rcases List.getElem?_eq_some.mp hr with ⟨hi, hget⟩
      simpa using hget.symm
    have hpF : p = false := by
      rcases List.getElem?_eq_some.mp hp with ⟨hi, hget⟩
      simpa using hget.symm
    subst hrW hpF
    simp [allowed, allowedInit]

end TwoPC

end Stateright

namespace Stateright

namespace TwoPC

theorem all_true_getElem? {l : List Bool} {i : Nat} {p : Bool}
    (hall : l.all (fun b => b) = true) (h : l[i]? = some p) : p = true :=
  List.all_eq_true.mp hall p (List.getElem?_mem h)

theorem working_mem_allowed {t : TmState} {p m : Bool}
    (h : ({ st := RmState.Working, prep := p, msg := m } : RmLocal) ∈ allowed t) :
    p = false ∧ m = false ∧ t ≠ TmState.Committed := by
  cases t <;> simp_all [allowed, allowedInit, allowedAborted, allowedCommitted]

theorem p01_mem_allowed {t : TmState} (h : t ≠ TmState.Committed) :
    ({ st := RmState.Prepared, prep := false, msg := true } : RmLocal) ∈ allowed t := by
  cases t <;> simp_all [allowed, allowedInit, allowedAborted]

theorem a00_mem_allowed {t : TmState} (h : t ≠ TmState.Committed) :
    ({ st := RmState.Aborted, prep := false, msg := false } : RmLocal) ∈ allowed t := by
  cases t <;> simp_all [allowed, allowedInit, allowedAborted]

theorem prep_true_mem_allowedInit {r : RmState} {m : Bool}
    (h : ({ st := r, prep := true, msg := m } : RmLocal) ∈ allowedInit) :
    r = RmState.Prepared ∧ m = true := by
  simp_all [allowedInit]

theorem msg_true_mem_allowedInit {r : RmState} {p : Bool}
    (h : ({ st := r, prep := p, msg := true } : RmLocal) ∈ allowedInit) :
    r = RmState.Prepared := by
  simp only [allowedInit, List.mem_cons, List.mem_singleton, RmLocal.mk.injEq] at h
  rcases h with ⟨_, _, hm⟩ | ⟨hr, _, _⟩ | ⟨hr, _, _⟩ | ⟨_, _, hm⟩ <;> simp_all

theorem mem_allowedCommitted {r : RmState} {p m : Bool}
    (h : ({ st := r, prep := p, msg := m } : RmLocal) ∈ allowedCommitted) :
    (r = RmState.Prepared ∨ r = RmState.Committed) ∧ p = true ∧ m = true := by
  simp only [allowedCommitted, List.mem_cons, List.mem_singleton, RmLocal.mk.injEq] at h
  rcases h with ⟨hr, hp, hm⟩ | ⟨hr, hp, hm⟩ <;> simp_all

theorem c11_mem_allowedCommitted :
    ({ st := RmState.Committed, prep := true, msg := true } : RmLocal) ∈ allowedCommitted := by
  simp [allowedCommitted]

theorem aborted_update_allowedAborted {r : RmState} {p m : Bool}
    (h : ({ st := r, prep := p, msg := m } : RmLocal) ∈ allowedAborted) :
    ({ st := RmState.Aborted, prep := p, msg := m } : RmLocal) ∈ allowedAborted := by
  simp only [allowedAborted, allowedInit, List.mem_append, List.mem_cons,
    List.mem_singleton, RmLocal.mk.injEq] at h ⊢
  tauto

theorem allowedInit_subset_allowedAborted {l : RmLocal} (h : l ∈ allowedInit) :
    l ∈ allowedAborted :=
  List.mem_append_left _ h

end TwoPC

end Stateright

namespace Stateright

namespace TwoPC

theorem shape_step {n : Nat} {s s' : TwoPhaseState} (hs : Shape n s)
    (h : step (sysN n) s s') : Shape n s' := by
  obtain ⟨a, ha, hns⟩ := h
  rcases mem_actions.mp ha with ⟨rfl, hInit, hAll⟩ | ⟨rfl, hInit⟩ | ⟨rm, hrm, hcase⟩
  · -- TmCommit
    simp only [next_state, PanicOr.ret.injEq, Option.some.injEq] at hns
    subst hns
    refine ⟨hs.len_rm, hs.len_tp, by simp, ?_, ?_, ?_⟩
    · simp [Finset.mem_insert, hs.abort_iff, hInit]
    · intro i hi
      simp only [Finset.mem_insert] at hi
      rcases hi with hi | hi
      · cases hi
      · exact hs.prep_lt i hi
    · intro i r p hr hp
      have hlocal := hs.locals i r p hr hp
      rw [hInit] at hlocal
      have hp' : p = true := all_true_getElem? hAll hp
      subst hp'
      obtain ⟨hr', hm⟩ := prep_true_mem_allowedInit hlocal
      subst hr'
      have hbit : (Message.Prepared i ∈ insert Message.Commit s.msgs) =
          (Message.Prepared i ∈ s.msgs) := by simp
      simp only [hbit, hm]
      simp [allowed, allowedCommitted]
  · -- TmAbort
    simp only [next_state, PanicOr.ret.injEq, Option.some.injEq] at hns
    subst hns
    refine ⟨hs.len_rm, hs.len_tp, ?_, by simp, ?_, ?_⟩
    · simp [Finset.mem_insert, hs.commit_iff, hInit]
    · intro i hi
      simp only [Finset.mem_insert] at hi
      rcases hi with hi | hi
      · cases hi
      · exact hs.prep_lt i hi
    · intro i r p hr hp
      have hlocal := hs.locals i r p hr hp
      rw [hInit] at hlocal
      have hbit : (Message.Prepared i ∈ insert Message.Abort s.msgs) =
          (Message.Prepared i ∈ s.msgs) := by simp
      simp only [hbit]
      exact allowedInit_subset_allowedAborted hlocal
  · rw [sysN_toList] at hrm
    have hrmn : rm < n := List.mem_range.mp hrm
    rcases hcase with ⟨rfl, hInit, hPrep⟩ | ⟨rfl, hW⟩ | ⟨rfl, hW⟩ | ⟨rfl, hC⟩ | ⟨rfl, hA⟩
    · -- TmRcvPrepared rm
      have hlen : rm < s.tm_prepared.length := hs.len_tp ▸ hrmn
      simp only [next_state, vecWrite_of_lt true hlen, PanicOr.ret.injEq,
        Option.some.injEq] at hns
      subst hns
      refine ⟨hs.len_rm, by simpa using hs.len_tp, hs.commit_iff, hs.abort_iff,
        hs.prep_lt, ?_⟩
      intro i r p hr hp
      by_cases hi : rm = i
      · subst hi
        have hp' : p = true := by
          rw [List.getElem?_set_eq_of_lt true hlen] at hp
          exact (Option.some_inj.mp hp).symm
        subst hp'
        have hold : s.tm_prepared[rm]? = some (s.tm_prepared.get ⟨rm, hlen⟩) :=
          List.getElem?_eq_getElem hlen
        have hlocal := hs.locals rm r _ hr hold
        rw [hInit] at hlocal
        have hm : decide (Message.Prepared rm ∈ s.msgs) = true := decide_eq_true hPrep
        rw [hm] at hlocal
        have hr' := msg_true_mem_allowedInit hlocal
        subst hr'
        simp only [hInit, hm]
        simp [allowed, allowedInit]
      · rw [List.getElem?_set_ne hi] at hp
        exact hs.locals i r p hr hp
    · -- RmPrepare rm
      have hlen : rm < s.rm_state.length := by
        by_contra hc
        rw [List.getElem?_eq_none (Nat.le_of_not_lt hc)] at hW
        cases hW
      simp only [next_state, vecWrite_of_lt RmState.Prepared hlen, PanicOr.ret.injEq,
        Option.some.injEq] at hns
      subst hns
      refine ⟨by simpa using hs.len_rm, hs.len_tp, ?_, ?_, ?_, ?_⟩
      · simp [Finset.mem_insert, hs.commit_iff]
      · simp [Finset.mem_insert, hs.abort_iff]
      · intro i hi
        simp only [Finset.mem_insert, Message.Prepared.injEq] at hi
        rcases hi with hi | hi
        · subst hi; exact hrmn
        · exact hs.prep_lt i hi
      · intro i r p hr hp
        by_cases hi : rm = i
        · subst hi
          have hr' : r = RmState.Prepared := by
            rw [List.getElem?_set_eq_of_lt RmState.Prepared hlen] at hr
            exact (Option.some_inj.mp hr).symm
          subst hr'
          have hlocal := hs.locals rm RmState.Working p hW hp
          obtain ⟨hp', _, ht⟩ := working_mem_allowed hlocal
          subst hp'
          have hbit : decide (Message.Prepared rm ∈ insert (Message.Prepared rm) s.msgs) =
              true := decide_eq_true (Finset.mem_insert_self _ _)
          rw [hbit]
          exact p01_mem_allowed ht
        · rw [List.getElem?_set_ne hi] at hr
          have hii : i ≠ rm := fun h => hi h.symm
          have hbit : (Message.Prepared i ∈ insert (Message.Prepared rm) s.msgs) =
              (Message.Prepared i ∈ s.msgs) := by
            simp [Finset.mem_insert, Message.Prepared.injEq, hii]
          simp only [hbit]
          exact hs.locals i r p hr hp
    · -- RmChooseToAbort rm
      have hlen : rm < s.rm_state.length := by
        by_contra hc
        rw [List.getElem?_eq_none (Nat.le_of_not_lt hc)] at hW
        cases hW
      simp only [next_state, vecWrite_of_lt RmState.Aborted hlen, PanicOr.ret.injEq,
        Option.some.injEq] at hns
      subst hns
      refine ⟨by simpa using hs.len_rm, hs.len_tp, hs.commit_iff, hs.abort_iff,
        hs.prep_lt, ?_⟩
      intro i r p hr hp
      by_cases hi : rm = i
      · subst hi
        have hr' : r = RmState.Aborted := by
          rw [List.getElem?_set_eq_of_lt RmState.Aborted hlen] at hr
          exact (Option.some_inj.mp hr).symm
        subst hr'
        have hlocal := hs.locals rm RmState.Working p hW hp
        obtain ⟨hp', hm, ht⟩ := working_mem_allowed hlocal
        subst hp'
        rw [hm]
        exact a00_mem_allowed ht
      · rw [List.getElem?_set_ne hi] at hr
        exact hs.locals i r p hr hp
    · -- RmRcvCommitMsg rm
      have hlen : rm < s.rm_state.length := hs.len_rm ▸ hrmn
      have ht : s.tm_state = TmState.Committed := hs.commit_iff.mp hC
      simp only [next_state, vecWrite_of_lt RmState.Committed hlen, PanicOr.ret.injEq,
        Option.some.injEq] at hns
      subst hns
      refine ⟨by simpa using hs.len_rm, hs.len_tp, hs.commit_iff, hs.abort_iff,
        hs.prep_lt, ?_⟩
      intro i r p hr hp
      by_cases hi : rm = i
      · subst hi
        have hr' : r = RmState.Committed := by
          rw [List.getElem?_set_eq_of_lt RmState.Committed hlen] at hr
          exact (Option.some_inj.mp hr).symm
        subst hr'
        have hold : s.rm_state[rm]? = some (s.rm_state.get ⟨rm, hlen⟩) :=
          List.getElem?_eq_getElem hlen
        have hlocal := hs.locals rm _ p hold hp
        rw [ht] at hlocal ⊢
        obtain ⟨_, hp', hm⟩ := mem_allowedCommitted hlocal
        subst hp'
        rw [hm]
        exact c11_mem_allowedCommitted
      · rw [List.getElem?_set_ne hi] at hr
        exact hs.locals i r p hr hp
    · -- RmRcvAbortMsg rm
      have hlen : rm < s.rm_state.length := hs.len_rm ▸ hrmn
      have ht : s.tm_state = TmState.Aborted := hs.abort_iff.mp hA
      simp only [next_state, vecWrite_of_lt RmState.Aborted hlen, PanicOr.ret.injEq,
        Option.some.injEq] at hns
      subst hns
      refine ⟨by simpa using hs.len_rm, hs.len_tp, hs.commit_iff, hs.abort_iff,
        hs.prep_lt, ?_⟩
      intro i r p hr hp
      by_cases hi : rm = i
      · subst hi
        have hr' : r = RmState.Aborted := by
          rw [List.getElem?_set_eq_of_lt RmState.Aborted hlen] at hr
          exact (Option.some_inj.mp hr).symm
        subst hr'
        have hold : s.rm_state[rm]? = some (s.rm_state.get ⟨rm, hlen⟩) :=
          List.getElem?_eq_getElem hlen
        have hlocal := hs.locals rm _ p hold hp
        rw [ht] at hlocal ⊢
        exact aborted_update_allowedAborted hlocal
      · rw [List.getElem?_set_ne hi] at hr
        exact hs.locals i r p hr hp

theorem reachable_shape {n : Nat} {s : TwoPhaseState} (h : Reachable (sysN n) s) :
    Shape n s := by
  induction h with
  | init s hmem =>
    simp only [init_states, List.mem_singleton] at hmem
    subst hmem
    exact shape_init n
  | step s s' _ hstep ih => exact shape_step ih hstep

end TwoPC

end Stateright

namespace Stateright

namespace TwoPC

theorem w00_mem_allowed {t : TmState} (h : t ≠ TmState.Committed) :
    ({ st := RmState.Working, prep := false, msg := false } : RmLocal) ∈ allowed t := by
  cases t <;> simp_all [allowed, allowedInit, allowedAborted]

theorem p11_mem_allowed (t : TmState) :
    ({ st := RmState.Prepared, prep := true, msg := true } : RmLocal) ∈ allowed t := by
  cases t <;> simp [allowed, allowedInit, allowedAborted, allowedCommitted]

theorem shape_local {n : Nat} {s : TwoPhaseState} (hs : Shape n s) {i : Nat} (hi : i < n) :
    ∃ r p, s.rm_state[i]? = some r ∧ s.tm_prepared[i]? = some p ∧
      ({ st := r, prep := p, msg := decide (Message.Prepared i ∈ s.msgs) } : RmLocal) ∈
        allowed s.tm_state := by
  have h1 : i < s.rm_state.length := hs.len_rm ▸ hi
  have h2 : i < s.tm_prepared.length := hs.len_tp ▸ hi
  exact ⟨_, _, List.getElem?_eq_getElem h1, List.getElem?_eq_getElem h2,
    hs.locals i _ _ (List.getElem?_eq_getElem h1) (List.getElem?_eq_getElem h2)⟩

theorem localAt_congr {s s₀ : TwoPhaseState} {j : Nat}
    (h1 : s₀.rm_state[j]? = s.rm_state[j]?) (h2 : s₀.tm_prepared[j]? = s.tm_prepared[j]?)
    (h3 : (Message.Prepared j ∈ s₀.msgs) ↔ (Message.Prepared j ∈ s.msgs)) :
    localAt s₀ j = localAt s j := by
  have hb : decide (Message.Prepared j ∈ s₀.msgs) = decide (Message.Prepared j ∈ s.msgs) :=
    decide_eq_decide.mpr h3
  unfold localAt
  rw [h1, h2, hb]

theorem weightAt_congr {s s₀ : TwoPhaseState} {j : Nat}
    (h : localAt s₀ j = localAt s j) : weightAt s₀ j = weightAt s j := by
  unfold weightAt
  rw [h]

theorem weightAt_eq (s : TwoPhaseState) {i : Nat} {r : RmState} {p : Bool}
    (hr : s.rm_state[i]? = some r) (hp : s.tm_prepared[i]? = some p) :
    weightAt s i =
      RmLocal.weight { st := r, prep := p, msg := decide (Message.Prepared i ∈ s.msgs) } := by
  unfold weightAt localAt
  rw [hr, hp]

theorem measure_lt_of_update {n i : Nat} (hi : i < n) {s s₀ : TwoPhaseState}
    (hsame : ∀ j, j ≠ i → weightAt s₀ j = weightAt s j)
    (hlt : weightAt s₀ i < weightAt s i)
    (htm : tmWeight s₀.tm_state = tmWeight s.tm_state) :
    measureTP n s₀ < measureTP n s := by
  unfold measureTP
  rw [htm]
  apply Nat.add_lt_add_left
  apply Finset.sum_lt_sum
  · intro j _
    by_cases hji : j = i
    · subst hji
      exact Nat.le_of_lt hlt
    · exact le_of_eq (hsame j hji)
  · exact ⟨i, Finset.mem_range.mpr hi, hlt⟩

theorem measure_lt_of_tm {n : Nat} {s s₀ : TwoPhaseState}
    (hsame : ∀ j, weightAt s₀ j = weightAt s j)
    (hlt : tmWeight s₀.tm_state < tmWeight s.tm_state) :
    measureTP n s₀ < measureTP n s := by
  unfold measureTP
  have : ∑ j ∈ Finset.range n, weightAt s₀ j = ∑ j ∈ Finset.range n, weightAt s j :=
    Finset.sum_congr rfl (fun j _ => hsame j)
  rw [this]
  exact Nat.add_lt_add_right hlt _

end TwoPC

end Stateright

namespace Stateright

namespace TwoPC

theorem pred_rmPrepare {n : Nat} {s : TwoPhaseState} (hs : Shape n s) {i : Nat} (hi : i < n)
    (ht : s.tm_state ≠ TmState.Committed)
    (hr : s.rm_state[i]? = some RmState.Prepared)
    (hp : s.tm_prepared[i]? = some false)
    (hm : Message.Prepared i ∈ s.msgs) :
    ∃ s₀, Shape n s₀ ∧ measureTP n s₀ < measureTP n s ∧ step (sysN n) s₀ s := by
  have hlen : i < s.rm_state.length := hs.len_rm ▸ hi
  refine ⟨TwoPhaseState.mk (s.rm_state.set i RmState.Working) s.tm_state s.tm_prepared
    (s.msgs.erase (Message.Prepared i)), ?_, ?_, ?_⟩
  · refine ⟨by simpa using hs.len_rm, hs.len_tp, ?_, ?_, ?_, ?_⟩
    · simpa [Finset.mem_erase] using hs.commit_iff
    · simpa [Finset.mem_erase] using hs.abort_iff
    · intro j hj
      exact hs.prep_lt j (Finset.mem_of_mem_erase hj)
    · intro j r p hjr hjp
      by_cases hji : i = j
      · subst hji
        rw [List.getElem?_set_eq_of_lt _ hlen] at hjr
        obtain rfl : RmState.Working = r := Option.some_inj.mp hjr
        obtain rfl : false = p := Option.some_inj.mp (hp.symm.trans hjp)
        have hbit : decide (Message.Prepared i ∈ s.msgs.erase (Message.Prepared i)) = false := by
          simp
        simp only [hbit]
        exact w00_mem_allowed ht
      · rw [List.getElem?_set_ne hji] at hjr
        have hne : Message.Prepared j ≠ Message.Prepared i := by
          intro e
          exact hji (Message.Prepared.inj e).symm
        have hbit : decide (Message.Prepared j ∈ s.msgs.erase (Message.Prepared i)) =
            decide (Message.Prepared j ∈ s.msgs) := by
          apply decide_eq_decide.mpr
          rw [Finset.mem_erase]
          exact and_iff_right hne
        simp only [hbit]
        exact hs.locals j r p hjr hjp
  · have h0 : weightAt (TwoPhaseState.mk (s.rm_state.set i RmState.Working) s.tm_state
        s.tm_prepared (s.msgs.erase (Message.Prepared i))) i = 0 := by
      rw [weightAt_eq _ (by simpa using List.getElem?_set_eq_of_lt RmState.Working hlen)
        (show (TwoPhaseState.mk (s.rm_state.set i RmState.Working) s.tm_state s.tm_prepared
          (s.msgs.erase (Message.Prepared i))).tm_prepared[i]? = some false from hp)]
      rfl
    have h1 : weightAt s i = 1 := by
      rw [weightAt_eq s hr hp, decide_eq_true hm]
      rfl
    apply measure_lt_of_update hi
    · intro j hji
      apply weightAt_congr
      apply localAt_congr
      · exact List.getElem?_set_ne (fun e => hji e.symm)
      · rfl
      · rw [Finset.mem_erase]
        have hne : Message.Prepared j ≠ Message.Prepared i := by
          intro e
          exact hji (Message.Prepared.inj e)
        exact and_iff_right hne
    · rw [h0, h1]
      exact Nat.zero_lt_one
    · rfl
  · refine ⟨Action.RmPrepare i, ?_, ?_⟩
    · apply mem_actions.mpr
      refine Or.inr (Or.inr ⟨i, ?_, Or.inr (Or.inl ⟨rfl, ?_⟩)⟩)
      · rw [sysN_toList]
        exact List.mem_range.mpr hi
      · simpa using List.getElem?_set_eq_of_lt RmState.Working hlen
    · have hlen₀ : i < (s.rm_state.set i RmState.Working).length := by simpa using hlen
      simp only [next_state, vecWrite_of_lt RmState.Prepared hlen₀]
      rw [List.set_set, set_of_getElem? hr, Finset.insert_erase hm]

end TwoPC

end Stateright

namespace Stateright

namespace TwoPC

theorem prepared_mem_allowedAborted (p : Bool) :
    ({ st := RmState.Prepared, prep := p, msg := true } : RmLocal) ∈ allowedAborted := by
  cases p <;> simp [allowedAborted, allowedInit]

theorem pred_chooseAbort {n : Nat} {s : TwoPhaseState} (hs : Shape n s) {i : Nat} (hi : i < n)
    (ht : s.tm_state ≠ TmState.Committed)
    (hr : s.rm_state[i]? = some RmState.Aborted)
    (hp : s.tm_prepared[i]? = some false)
    (hm : Message.Prepared i ∉ s.msgs) :
    ∃ s₀, Shape n s₀ ∧ measureTP n s₀ < measureTP n s ∧ step (sysN n) s₀ s := by
  have hlen : i < s.rm_state.length := hs.len_rm ▸ hi
  refine ⟨TwoPhaseState.mk (s.rm_state.set i RmState.Working) s.tm_state s.tm_prepared s.msgs,
    ?_, ?_, ?_⟩
  · refine ⟨by simpa using hs.len_rm, hs.len_tp, hs.commit_iff, hs.abort_iff, hs.prep_lt, ?_⟩
    intro j r p hjr hjp
    by_cases hji : i = j
    · subst hji
      rw [List.getElem?_set_eq_of_lt _ hlen] at hjr
      obtain rfl : RmState.Working = r := Option.some_inj.mp hjr
      obtain rfl : false = p := Option.some_inj.mp (hp.symm.trans hjp)
      rw [decide_eq_false hm]
      exact w00_mem_allowed ht
    · rw [List.getElem?_set_ne hji] at hjr
      exact hs.locals j r p hjr hjp
  · have h0 : weightAt (TwoPhaseState.mk (s.rm_state.set i RmState.Working) s.tm_state
        s.tm_prepared s.msgs) i = 0 := by
      rw [weightAt_eq _ (by simpa using List.getElem?_set_eq_of_lt RmState.Working hlen)
        (show (TwoPhaseState.mk (s.rm_state.set i RmState.Working) s.tm_state s.tm_prepared
          s.msgs).tm_prepared[i]? = some false from hp)]
      rfl
    have h1 : weightAt s i = 1 := by
      rw [weightAt_eq s hr hp, decide_eq_false hm]
      rfl
    apply measure_lt_of_update hi
    · intro j hji
      exact weightAt_congr (localAt_congr (List.getElem?_set_ne (fun e => hji e.symm)) rfl
        Iff.rfl)
    · rw [h0, h1]
      exact Nat.zero_lt_one
    · rfl
  · refine ⟨Action.RmChooseToAbort i, ?_, ?_⟩
    · apply mem_actions.mpr
      refine Or.inr (Or.inr ⟨i, ?_, Or.inr (Or.inr (Or.inl ⟨rfl, ?_⟩))⟩)
      · rw [sysN_toList]
        exact List.mem_range.mpr hi
      · simpa using List.getElem?_set_eq_of_lt RmState.Working hlen
    · have hlen₀ : i < (s.rm_state.set i RmState.Working).length := by simpa using hlen
      simp only [next_state, vecWrite_of_lt RmState.Aborted hlen₀]
      rw [List.set_set, set_of_getElem? hr]

theorem pred_tmRcvPrepared {n : Nat} {s : TwoPhaseState} (hs : Shape n s) {i : Nat} (hi : i < n)
    (ht : s.tm_state = TmState.Init)
    (hr : s.rm_state[i]? = some RmState.Prepared)
    (hp : s.tm_prepared[i]? = some true)
    (hm : Message.Prepared i ∈ s.msgs) :
    ∃ s₀, Shape n s₀ ∧ measureTP n s₀ < measureTP n s ∧ step (sysN n) s₀ s := by
  have hlen : i < s.tm_prepared.length := hs.len_tp ▸ hi
  refine ⟨TwoPhaseState.mk s.rm_state s.tm_state (s.tm_prepared.set i false) s.msgs,
    ?_, ?_, ?_⟩
  · refine ⟨hs.len_rm, by simpa using hs.len_tp, hs.commit_iff, hs.abort_iff, hs.prep_lt, ?_⟩
    intro j r p hjr hjp
    by_cases hji : i = j
    · subst hji
      rw [List.getElem?_set_eq_of_lt _ hlen] at hjp
      obtain rfl : RmState.Prepared = r := Option.some_inj.mp (hr.symm.trans hjr)
      obtain rfl : false = p := Option.some_inj.mp hjp
      rw [decide_eq_true hm, ht]
      exact p01_mem_allowed (by simp)
    · rw [List.getElem?_set_ne hji] at hjp
      exact hs.locals j r p hjr hjp
  · have h0 : weightAt (TwoPhaseState.mk s.rm_state s.tm_state (s.tm_prepared.set i false)
        s.msgs) i = 1 := by
      rw [weightAt_eq _ (show (TwoPhaseState.mk s.rm_state s.tm_state
          (s.tm_prepared.set i false) s.msgs).rm_state[i]? = some RmState.Prepared from hr)
        (by simpa using List.getElem?_set_eq_of_lt false hlen)]
      rfl
    have h1 : weightAt s i = 2 := by
      rw [weightAt_eq s hr hp]
      rfl
    apply measure_lt_of_update hi
    · intro j hji
      exact weightAt_congr (localAt_congr rfl (List.getElem?_set_ne (fun e => hji e.symm))
        Iff.rfl)
    · rw [h0, h1]
      exact Nat.one_lt_two
    · rfl
  · refine ⟨Action.TmRcvPrepared i, ?_, ?_⟩
    · apply mem_actions.mpr
      refine Or.inr (Or.inr ⟨i, ?_, Or.inl ⟨rfl, ht, hm⟩⟩)
      rw [sysN_toList]
      exact List.mem_range.mpr hi
    · have hlen₀ : i < (s.tm_prepared.set i false).length := by simpa using hlen
      simp only [next_state, vecWrite_of_lt true hlen₀]
      rw [List.set_set, set_of_getElem? hp]

theorem pred_rcvAbort {n : Nat} {s : TwoPhaseState} (hs : Shape n s) {i : Nat} (hi : i < n)
    (ht : s.tm_state = TmState.Aborted)
    (hr : s.rm_state[i]? = some RmState.Aborted)
    {p : Bool} (hp : s.tm_prepared[i]? = some p)
    (hm : Message.Prepared i ∈ s.msgs) :
    ∃ s₀, Shape n s₀ ∧ measureTP n s₀ < measureTP n s ∧ step (sysN n) s₀ s := by
  have hlen : i < s.rm_state.length := hs.len_rm ▸ hi
  refine ⟨TwoPhaseState.mk (s.rm_state.set i RmState.Prepared) s.tm_state s.tm_prepared s.msgs,
    ?_, ?_, ?_⟩
  · refine ⟨by simpa using hs.len_rm, hs.len_tp, hs.commit_iff, hs.abort_iff, hs.prep_lt, ?_⟩
    intro j r q hjr hjp
    by_cases hji : i = j
    · subst hji
      rw [List.getElem?_set_eq_of_lt _ hlen] at hjr
      obtain rfl : RmState.Prepared = r := Option.some_inj.mp hjr
      obtain rfl : p = q := Option.some_inj.mp (hp.symm.trans hjp)
      rw [decide_eq_true hm, ht]
      exact prepared_mem_allowedAborted p
    · rw [List.getElem?_set_ne hji] at hjr
      exact hs.locals j r q hjr hjp
  · have h0 : weightAt (TwoPhaseState.mk (s.rm_state.set i RmState.Prepared) s.tm_state
        s.tm_prepared s.msgs) i =
        RmLocal.weight { st := RmState.Prepared, prep := p, msg := true } := by
      rw [weightAt_eq _ (by simpa using List.getElem?_set_eq_of_lt RmState.Prepared hlen)
        (show (TwoPhaseState.mk (s.rm_state.set i RmState.Prepared) s.tm_state s.tm_prepared
          s.msgs).tm_prepared[i]? = some p from hp), decide_eq_true hm]
    have h1 : weightAt s i =
        RmLocal.weight { st := RmState.Aborted, prep := p, msg := true } := by
      rw [weightAt_eq s hr hp, decide_eq_true hm]
    apply measure_lt_of_update hi
    · intro j hji
      exact weightAt_congr (localAt_congr (List.getElem?_set_ne (fun e => hji e.symm)) rfl
        Iff.rfl)
    · rw [h0, h1]
      cases p <;> decide
    · rfl
  · refine ⟨Action.RmRcvAbortMsg i, ?_, ?_⟩
    · apply mem_actions.mpr
      refine Or.inr (Or.inr ⟨i, ?_, Or.inr (Or.inr (Or.inr (Or.inr ⟨rfl, ?_⟩)))⟩)
      · rw [sysN_toList]
        exact List.mem_range.mpr hi
      · exact hs.abort_iff.mpr ht
    · have hlen₀ : i < (s.rm_state.set i RmState.Prepared).length := by simpa using hlen
      simp only [next_state, vecWrite_of_lt RmState.Aborted hlen₀]
      rw [List.set_set, set_of_getElem? hr]

theorem pred_rcvCommit {n : Nat} {s : TwoPhaseState} (hs : Shape n s) {i : Nat} (hi : i < n)
    (ht : s.tm_state = TmState.Committed)
    (hr : s.rm_state[i]? = some RmState.Committed)
    (hp : s.tm_prepared[i]? = some true)
    (hm : Message.Prepared i ∈ s.msgs) :
    ∃ s₀, Shape n s₀ ∧ measureTP n s₀ < measureTP n s ∧ step (sysN n) s₀ s := by
  have hlen : i < s.rm_state.length := hs.len_rm ▸ hi
  refine ⟨TwoPhaseState.mk (s.rm_state.set i RmState.Prepared) s.tm_state s.tm_prepared s.msgs,
    ?_, ?_, ?_⟩
  · refine ⟨by simpa using hs.len_rm, hs.len_tp, hs.commit_iff, hs.abort_iff, hs.prep_lt, ?_⟩
    intro j r q hjr hjp
    by_cases hji : i = j
    · subst hji
      rw [List.getElem?_set_eq_of_lt _ hlen] at hjr
      obtain rfl : RmState.Prepared = r := Option.some_inj.mp hjr
      obtain rfl : true = q := Option.some_inj.mp (hp.symm.trans hjp)
      rw [decide_eq_true hm, ht]
      exact p11_mem_allowed TmState.Committed
    · rw [List.getElem?_set_ne hji] at hjr
      exact hs.locals j r q hjr hjp
  · have h0 : weightAt (TwoPhaseState.mk (s.rm_state.set i RmState.Prepared) s.tm_state
        s.tm_prepared s.msgs) i = 2 := by
      rw [weightAt_eq _ (by simpa using List.getElem?_set_eq_of_lt RmState.Prepared hlen)
        (show (TwoPhaseState.mk (s.rm_state.set i RmState.Prepared) s.tm_state s.tm_prepared
          s.msgs).tm_prepared[i]? = some true from hp)]
      rfl
    have h1 : weightAt s i = 3 := by
      rw [weightAt_eq s hr hp]
      rfl
    apply measure_lt_of_update hi
    · intro j hji
      exact weightAt_congr (localAt_congr (List.getElem?_set_ne (fun e => hji e.symm)) rfl
        Iff.rfl)
    · rw [h0, h1]
      exact Nat.lt_succ_self 2
    · rfl
  · refine ⟨Action.RmRcvCommitMsg i, ?_, ?_⟩
    · apply mem_actions.mpr
      refine Or.inr (Or.inr ⟨i, ?_, Or.inr (Or.inr (Or.inr (Or.inl ⟨rfl, ?_⟩)))⟩)
      · rw [sysN_toList]
        exact List.mem_range.mpr hi
      · exact hs.commit_iff.mpr ht
    · have hlen₀ : i < (s.rm_state.set i RmState.Prepared).length := by simpa using hlen
      simp only [next_state, vecWrite_of_lt RmState.Committed hlen₀]
      rw [List.set_set, set_of_getElem? hr]

end TwoPC

end Stateright

namespace Stateright

namespace TwoPC

theorem pred_tmCommit {n : Nat} {s : TwoPhaseState} (hs : Shape n s)
    (ht : s.tm_state = TmState.Committed)
    (hnoC : ∀ (j : Nat) (r : RmState), s.rm_state[j]? = some r → r ≠ RmState.Committed) :
    ∃ s₀, Shape n s₀ ∧ measureTP n s₀ < measureTP n s ∧ step (sysN n) s₀ s := by
  have hall : s.tm_prepared.all (fun p => p) = true := by
    apply List.all_eq_true.mpr
    intro x hx
    obtain ⟨j, hj, hget⟩ := List.mem_iff_getElem.mp hx
    have hjn : j < n := hs.len_tp ▸ hj
    obtain ⟨r, q, hjr, hjq, hmem⟩ := shape_local hs hjn
    rw [ht] at hmem
    obtain ⟨_, hq, _⟩ := mem_allowedCommitted hmem
    have : x = q := by
      rw [List.getElem?_eq_getElem hj, hget] at hjq
      exact Option.some_inj.mp hjq
    rw [this, hq]
  refine ⟨TwoPhaseState.mk s.rm_state TmState.Init s.tm_prepared
    (s.msgs.erase Message.Commit), ?_, ?_, ?_⟩
  · refine ⟨hs.len_rm, hs.len_tp, ?_, ?_, ?_, ?_⟩
    · simp
    · have : Message.Abort ∉ s.msgs := by
        rw [hs.abort_iff, ht]
        simp
      simp [Finset.mem_erase, this]
    · intro j hj
      exact hs.prep_lt j (Finset.mem_of_mem_erase hj)
    · intro j r p hjr hjp
      have hlocal := hs.locals j r p hjr hjp
      rw [ht] at hlocal
      obtain ⟨hro, hp', hm⟩ := mem_allowedCommitted hlocal
      have hr' : r = RmState.Prepared := by
        rcases hro with h | h
        · exact h
        · exact absurd h (hnoC j r hjr)
      subst hr' hp'
      have hbit : decide (Message.Prepared j ∈ s.msgs.erase Message.Commit) =
          decide (Message.Prepared j ∈ s.msgs) := by
        apply decide_eq_decide.mpr
        rw [Finset.mem_erase]
        exact and_iff_right (by simp)
      rw [hbit, hm]
      simp [allowed, allowedInit]
  · apply measure_lt_of_tm
    · intro j
      refine weightAt_congr (localAt_congr rfl rfl ?_)
      rw [Finset.mem_erase]
      exact and_iff_right (by simp)
    · rw [ht]
      exact Nat.zero_lt_one
  · refine ⟨Action.TmCommit, ?_, ?_⟩
    · exact mem_actions.mpr (Or.inl ⟨rfl, rfl, hall⟩)
    · simp only [next_state]
      rw [Finset.insert_erase (hs.commit_iff.mpr ht), ← ht]

theorem pred_tmAbort {n : Nat} {s : TwoPhaseState} (hs : Shape n s)
    (ht : s.tm_state = TmState.Aborted)
    (hInitLocals : ∀ j r p, s.rm_state[j]? = some r → s.tm_prepared[j]? = some p →
      ({ st := r, prep := p, msg := decide (Message.Prepared j ∈ s.msgs) } : RmLocal) ∈
        allowedInit) :
    ∃ s₀, Shape n s₀ ∧ measureTP n s₀ < measureTP n s ∧ step (sysN n) s₀ s := by
  refine ⟨TwoPhaseState.mk s.rm_state TmState.Init s.tm_prepared
    (s.msgs.erase Message.Abort), ?_, ?_, ?_⟩
  · refine ⟨hs.len_rm, hs.len_tp, ?_, ?_, ?_, ?_⟩
    · have : Message.Commit ∉ s.msgs := by
        rw [hs.commit_iff, ht]
        simp
      simp [Finset.mem_erase, this]
    · simp
    · intro j hj
      exact hs.prep_lt j (Finset.mem_of_mem_erase hj)
    · intro j r p hjr hjp
      have hbit : decide (Message.Prepared j ∈ s.msgs.erase Message.Abort) =
          decide (Message.Prepared j ∈ s.msgs) := by
        apply decide_eq_decide.mpr
        rw [Finset.mem_erase]
        exact and_iff_right (by simp)
      rw [hbit]
      exact hInitLocals j r p hjr hjp
  · apply measure_lt_of_tm
    · intro j
      refine weightAt_congr (localAt_congr rfl rfl ?_)
      rw [Finset.mem_erase]
      exact and_iff_right (by simp)
    · rw [ht]
      exact Nat.zero_lt_one
  · refine ⟨Action.TmAbort, ?_, ?_⟩
    · exact mem_actions.mpr (Or.inr (Or.inl ⟨rfl, rfl⟩))
    · simp only [next_state]
      rw [Finset.insert_erase (hs.abort_iff.mpr ht), ← ht]

end TwoPC

end Stateright

namespace Stateright

namespace TwoPC

theorem measure_zero_eq_init {n : Nat} {s : TwoPhaseState} (hs : Shape n s)
    (h0 : measureTP n s = 0) : s = initState (sysN n) := by
  unfold measureTP at h0
  have htm : tmWeight s.tm_state = 0 := by omega
  have hsum : ∑ i ∈ Finset.range n, weightAt s i = 0 := by omega
  have ht : s.tm_state = TmState.Init := by
    cases hts : s.tm_state
    · rfl
    · rw [hts] at htm
      cases htm
    · rw [hts] at htm
      cases htm
  have hloc : ∀ i, i < n → s.rm_state[i]? = some RmState.Working ∧
      s.tm_prepared[i]? = some false ∧ Message.Prepared i ∉ s.msgs := by
    intro i hi
    obtain ⟨r, p, hr, hp, hmem⟩ := shape_local hs hi
    rw [ht] at hmem
    have hw := Finset.sum_eq_zero_iff.mp hsum i (Finset.mem_range.mpr hi)
    rw [weightAt_eq s hr hp] at hw
    simp only [allowed, allowedInit, List.mem_cons, List.not_mem_nil, or_false,
      RmLocal.mk.injEq] at hmem
    rcases hmem with ⟨h1, h2, h3⟩ | ⟨h1, h2, h3⟩ | ⟨h1, h2, h3⟩ | ⟨h1, h2, h3⟩
    · subst h1 h2
      exact ⟨hr, hp, of_decide_eq_false h3⟩
    · subst h1 h2
      rw [h3] at hw
      exact absurd hw (by decide)
    · subst h1 h2
      rw [h3] at hw
      exact absurd hw (by decide)
    · subst h1 h2
      rw [h3] at hw
      exact absurd hw (by decide)
  have hlen_rm : s.rm_state.length = n := hs.len_rm
  have hlen_tp : s.tm_prepared.length = n := hs.len_tp
  apply TwoPhaseState.ext
  · rw [initState, sysN_toList]
    apply List.ext_getElem?
    intro j
    rw [List.getElem?_map]
    by_cases hj : j < n
    · rw [(hloc j hj).1, List.getElem?_range hj]
      rfl
    · rw [List.getElem?_eq_none (by omega), List.getElem?_eq_none (by simpa using hj)]
      rfl
  · rw [initState]
    exact ht
  · rw [initState, sysN_toList]
    apply List.ext_getElem?
    intro j
    rw [List.getElem?_map]
    by_cases hj : j < n
    · rw [(hloc j hj).2.1, List.getElem?_range hj]
      rfl
    · rw [List.getElem?_eq_none (by omega), List.getElem?_eq_none (by simpa using hj)]
      rfl
  · rw [initState]
    apply Finset.eq_empty_iff_forall_not_mem.mpr
    intro m hm
    cases m with
    | Prepared i => exact (hloc i (hs.prep_lt i hm)).2.2 hm
    | Commit =>
      rw [hs.commit_iff, ht] at hm
      cases hm
    | Abort =>
      rw [hs.abort_iff, ht] at hm
      cases hm

end TwoPC

end Stateright

namespace Stateright

namespace TwoPC

theorem exists_pred {n : Nat} {s : TwoPhaseState} (hs : Shape n s)
    (hpos : measureTP n s ≠ 0) :
    ∃ s₀, Shape n s₀ ∧ measureTP n s₀ < measureTP n s ∧ step (sysN n) s₀ s := by
  cases hts : s.tm_state with
  | Init =>
    have hsum : ∑ i ∈ Finset.range n, weightAt s i ≠ 0 := by
      unfold measureTP at hpos
      rw [hts] at hpos
      simpa [tmWeight] using hpos
    have hex : ∃ i, i ∈ Finset.range n ∧ weightAt s i ≠ 0 := by
      by_contra hcon
      push_neg at hcon
      exact hsum (Finset.sum_eq_zero (fun i hi => hcon i hi))
    obtain ⟨i, hirange, hiw⟩ := hex
    have hi : i < n := Finset.mem_range.mp hirange
    obtain ⟨r, p, hr, hp, hmem⟩ := shape_local hs hi
    rw [hts] at hmem
    rw [weightAt_eq s hr hp] at hiw
    simp only [allowed, allowedInit, List.mem_cons, List.not_mem_nil, or_false,
      RmLocal.mk.injEq] at hmem
    rcases hmem with ⟨h1, h2, h3⟩ | ⟨h1, h2, h3⟩ | ⟨h1, h2, h3⟩ | ⟨h1, h2, h3⟩
    · subst h1 h2
      rw [h3] at hiw
      exact absurd (by decide) hiw
    · subst h1 h2
      exact pred_rmPrepare hs hi (by rw [hts]; simp) hr hp (of_decide_eq_true h3)
    · subst h1 h2
      exact pred_tmRcvPrepared hs hi hts hr hp (of_decide_eq_true h3)
    · subst h1 h2
      exact pred_chooseAbort hs hi (by rw [hts]; simp) hr hp (of_decide_eq_false h3)
  | Committed =>
    by_cases hC : ∃ i, i < n ∧ s.rm_state[i]? = some RmState.Committed
    · obtain ⟨i, hi, hr⟩ := hC
      have hplen : i < s.tm_prepared.length := hs.len_tp ▸ hi
      have hp : s.tm_prepared[i]? = some (s.tm_prepared.get ⟨i, hplen⟩) :=
        List.getElem?_eq_getElem hplen
      have hmem := hs.locals i _ _ hr hp
      rw [hts] at hmem
      obtain ⟨_, hp', hm⟩ := mem_allowedCommitted hmem
      rw [hp'] at hp
      exact pred_rcvCommit hs hi hts hr hp (of_decide_eq_true hm)
    · push_neg at hC
      apply pred_tmCommit hs hts
      intro j r hjr hrc
      subst hrc
      by_cases hj : j < n
      · exact hC j hj hjr
      · have hnone : s.rm_state[j]? = none := List.getElem?_eq_none (by rw [hs.len_rm]; omega)
        rw [hnone] at hjr
        cases hjr
  | Aborted =>
    by_cases hA : ∃ i, i < n ∧ s.rm_state[i]? = some RmState.Aborted
    · obtain ⟨i, hi, hr⟩ := hA
      have hplen : i < s.tm_prepared.length := hs.len_tp ▸ hi
      have hp : s.tm_prepared[i]? = some (s.tm_prepared.get ⟨i, hplen⟩) :=
        List.getElem?_eq_getElem hplen
      have hmem := hs.locals i _ _ hr hp
      rw [hts] at hmem
      cases hbit : decide (Message.Prepared i ∈ s.msgs) with
      | true => exact pred_rcvAbort hs hi hts hr hp (of_decide_eq_true hbit)
      | false =>
        rw [hbit] at hmem
        have hp' : s.tm_prepared.get ⟨i, hplen⟩ = false := by
          simp only [allowed, allowedAborted, allowedInit, List.mem_append, List.mem_cons,
            List.not_mem_nil, or_false, RmLocal.mk.injEq] at hmem
          tauto
        rw [hp'] at hp
        exact pred_chooseAbort hs hi (by rw [hts]; simp) hr hp (of_decide_eq_false hbit)
    · by_cases hP : ∃ i, i < n ∧ s.rm_state[i]? = some RmState.Prepared ∧
          s.tm_prepared[i]? = some false
      · obtain ⟨i, hi, hr, hp⟩ := hP
        have hmem := hs.locals i _ _ hr hp
        rw [hts] at hmem
        have hm : decide (Message.Prepared i ∈ s.msgs) = true := by
          simp only [allowed, allowedAborted, allowedInit, List.mem_append, List.mem_cons,
            List.not_mem_nil, or_false, RmLocal.mk.injEq] at hmem
          tauto
        exact pred_rmPrepare hs hi (by rw [hts]; simp) hr hp (of_decide_eq_true hm)
      · push_neg at hA hP
        apply pred_tmAbort hs hts
        intro j r p hjr hjp
        by_cases hj : j < n
        · have hmem := hs.locals j r p hjr hjp
          rw [hts] at hmem
          cases r with
          | Working =>
            obtain ⟨hp', hm', _⟩ := working_mem_allowed hmem
            subst hp'
            rw [hm']
            simp [allowedInit]
          | Prepared =>
            cases p with
            | false => exact absurd hjp (hP j hj hjr)
            | true =>
              have hm' : decide (Message.Prepared j ∈ s.msgs) = true := by
                simp only [allowed, allowedAborted, allowedInit, List.mem_append,
                  List.mem_cons, List.not_mem_nil, or_false, RmLocal.mk.injEq] at hmem
                tauto
              rw [hm']
              simp [allowedInit]
          | Committed =>
            simp [allowed, allowedAborted, allowedInit] at hmem
          | Aborted => exact absurd hjr (hA j hj)
        · have hnone : s.rm_state[j]? = none := List.getElem?_eq_none (by rw [hs.len_rm]; omega)
          rw [hnone] at hjr
          cases hjr

theorem shape_reachable {n : Nat} : ∀ s, Shape n s → Reachable (sysN n) s := by
  have main : ∀ k s, measureTP n s ≤ k → Shape n s → Reachable (sysN n) s := by
    intro k
    induction k with
    | zero =>
      intro s hm hs
      rw [measure_zero_eq_init hs (Nat.le_zero.mp hm)]
      exact Reachable.init _ (by simp [init_states])
    | succ k ih =>
      intro s hm hs
      by_cases h0 : measureTP n s = 0
      · rw [measure_zero_eq_init hs h0]
        exact Reachable.init _ (by simp [init_states])
      · obtain ⟨s₀, hs₀, hlt, hstep⟩ := exists_pred hs h0
        exact Reachable.step s₀ s (ih s₀ (by omega) hs₀) hstep
  exact fun s hs => main (measureTP n s) s le_rfl hs

end TwoPC

end Stateright

namespace Stateright

namespace TwoPC

theorem mem_allLists {opts : List RmLocal} : ∀ {k : Nat} {l : List RmLocal},
    l ∈ allLists opts k ↔ l.length = k ∧ ∀ x ∈ l, x ∈ opts := by
  intro k
  induction k with
  | zero =>
    intro l
    simp only [allLists, List.mem_singleton]
    constructor
    · rintro rfl
      simp
    · rintro ⟨hlen, _⟩
      exact List.length_eq_zero.mp hlen
  | succ k ih =>
    intro l
    simp only [allLists, List.mem_flatMap, List.mem_map]
    constructor
    · rintro ⟨x, hx, l', hl', rfl⟩
      obtain ⟨hlen, hall⟩ := ih.mp hl'
      refine ⟨by simp [hlen], ?_⟩
      intro y hy
      rcases List.mem_cons.mp hy with rfl | hy
      · exact hx
      · exact hall y hy
    · rintro ⟨hlen, hall⟩
      cases l with
      | nil => cases hlen
      | cons x l' =>
        refine ⟨x, hall x (List.mem_cons_self x l'), l', ?_, rfl⟩
        exact ih.mpr ⟨by simpa using hlen, fun y hy => hall y (List.mem_cons_of_mem x hy)⟩

theorem length_allLists {opts : List RmLocal} : ∀ {k : Nat},
    (allLists opts k).length = opts.length ^ k := by
  intro k
  induction k with
  | zero => rfl
  | succ k ih =>
    rw [allLists, List.length_flatMap]
    have hmap : List.map (List.length ∘ fun x => (allLists opts k).map (fun l => x :: l))
        opts = List.map (fun _ => opts.length ^ k) opts := by
      apply List.map_congr_left
      intro x _
      simp [ih]
    rw [hmap, List.map_const', List.sum_replicate, smul_eq_mul, pow_succ]
    ring

theorem nodup_allLists {opts : List RmLocal} (h : opts.Nodup) : ∀ {k : Nat},
    (allLists opts k).Nodup := by
  intro k
  induction k with
  | zero => simp [allLists]
  | succ k ih =>
    rw [allLists, List.nodup_flatMap]
    constructor
    · intro x _
      exact ih.map (fun a b hab => by cases hab; rfl)
    · apply List.Pairwise.imp ?_ h
      intro a b hab c hc1 hc2
      obtain ⟨l1, _, he1⟩ := List.mem_map.mp hc1
      obtain ⟨l2, _, he2⟩ := List.mem_map.mp hc2
      rw [← he1] at he2
      exact hab (List.cons.inj he2).1.symm

end TwoPC

end Stateright

namespace Stateright

namespace TwoPC

theorem mem_prepMsgs {locals : List RmLocal} {i : Nat} :
    Message.Prepared i ∈ prepMsgs locals ↔ locals[i]?.map RmLocal.msg = some true := by
  unfold prepMsgs
  rw [List.mem_toFinset, List.mem_filterMap]
  constructor
  · rintro ⟨j, _, hf⟩
    split at hf
    · rename_i hcond
      obtain rfl : j = i := Message.Prepared.inj (Option.some_inj.mp hf)
      exact hcond
    · cases hf
  · intro h
    have hi : i < locals.length := by
      by_contra hc
      rw [List.getElem?_eq_none (Nat.le_of_not_lt hc)] at h
      cases h
    exact ⟨i, List.mem_range.mpr hi, by rw [if_pos h]⟩

theorem commit_not_mem_prepMsgs {locals : List RmLocal} :
    Message.Commit ∉ prepMsgs locals := by
  unfold prepMsgs
  rw [List.mem_toFinset, List.mem_filterMap]
  rintro ⟨j, _, hf⟩
  split at hf
  · cases hf
  · cases hf

theorem abort_not_mem_prepMsgs {locals : List RmLocal} :
    Message.Abort ∉ prepMsgs locals := by
  unfold prepMsgs
  rw [List.mem_toFinset, List.mem_filterMap]
  rintro ⟨j, _, hf⟩
  split at hf
  · cases hf
  · cases hf

theorem commit_mem_tmMsgs {t : TmState} :
    Message.Commit ∈ tmMsgs t ↔ t = TmState.Committed := by
  cases t <;> simp [tmMsgs]

theorem abort_mem_tmMsgs {t : TmState} :
    Message.Abort ∈ tmMsgs t ↔ t = TmState.Aborted := by
  cases t <;> simp [tmMsgs]

theorem prepared_not_mem_tmMsgs {t : TmState} {i : Nat} :
    Message.Prepared i ∉ tmMsgs t := by
  cases t <;> simp [tmMsgs]

theorem prepared_mem_stateOf_msgs {t : TmState} {locals : List RmLocal} {i : Nat} :
    (Message.Prepared i ∈ (stateOf t locals).msgs) ↔ locals[i]?.map RmLocal.msg = some true := by
  simp only [stateOf, Finset.mem_union, mem_prepMsgs]
  constructor
  · rintro (h | h)
    · exact h
    · exact absurd h prepared_not_mem_tmMsgs
  · exact Or.inl

theorem shape_stateOf {n : Nat} {t : TmState} {locals : List RmLocal}
    (hlen : locals.length = n) (hall : ∀ l ∈ locals, l ∈ allowed t) :
    Shape n (stateOf t locals) := by
  refine ⟨by simp [stateOf, hlen], by simp [stateOf, hlen], ?_, ?_, ?_, ?_⟩
  · simp only [stateOf, Finset.mem_union]
    constructor
    · rintro (h | h)
      · exact absurd h commit_not_mem_prepMsgs
      · exact commit_mem_tmMsgs.mp h
    · intro h
      exact Or.inr (commit_mem_tmMsgs.mpr h)
  · simp only [stateOf, Finset.mem_union]
    constructor
    · rintro (h | h)
      · exact absurd h abort_not_mem_prepMsgs
      · exact abort_mem_tmMsgs.mp h
    · intro h
      exact Or.inr (abort_mem_tmMsgs.mpr h)
  · intro i hi
    have h := prepared_mem_stateOf_msgs.mp hi
    have : i < locals.length := by
      by_contra hc
      rw [List.getElem?_eq_none (Nat.le_of_not_lt hc)] at h
      cases h
    omega
  · intro i r p hr hp
    simp only [stateOf, List.getElem?_map] at hr hp
    cases hli : locals[i]? with
    | none =>
      rw [hli] at hr
      cases hr
    | some l =>
      rw [hli] at hr hp
      obtain rfl : l.st = r := Option.some_inj.mp hr
      obtain rfl : l.prep = p := Option.some_inj.mp hp
      have hbit : decide (Message.Prepared i ∈ (stateOf t locals).msgs) = l.msg := by
        rcases hb : l.msg with _ | _
        · apply decide_eq_false
          rw [prepared_mem_stateOf_msgs, hli]
          simp [hb]
        · apply decide_eq_true
          rw [prepared_mem_stateOf_msgs, hli]
          simp [hb]
      have hgoal : ({ st := l.st, prep := l.prep, msg := l.msg } : RmLocal) ∈ allowed t := by
        have hl : ({ st := l.st, prep := l.prep, msg := l.msg } : RmLocal) = l := rfl
        rw [hl]
        exact hall l (List.getElem?_mem hli)
      show ({ st := l.st, prep := l.prep,
              msg := decide (Message.Prepared i ∈ (stateOf t locals).msgs) } : RmLocal) ∈
          allowed (stateOf t locals).tm_state
      rw [hbit]
      exact hgoal

end TwoPC

end Stateright

namespace Stateright

namespace TwoPC

theorem localsOf_length {n : Nat} {s : TwoPhaseState} : (localsOf n s).length = n := by
  simp [localsOf]

theorem localsOf_getElem? {n : Nat} {s : TwoPhaseState} {i : Nat} (hi : i < n) :
    (localsOf n s)[i]? = some (RmLocal.mk (s.rm_state[i]?.getD RmState.Working)
      (s.tm_prepared[i]?.getD false) (decide (Message.Prepared i ∈ s.msgs))) := by
  simp [localsOf, List.getElem?_map, List.getElem?_range hi]

theorem localsOf_mem_allowed {n : Nat} {s : TwoPhaseState} (hs : Shape n s) :
    ∀ l ∈ localsOf n s, l ∈ allowed s.tm_state := by
  intro l hl
  obtain ⟨i, hi, hget⟩ := List.mem_iff_getElem.mp hl
  have hin : i < n := by
    rw [localsOf_length] at hi
    exact hi
  have h1 : i < s.rm_state.length := hs.len_rm ▸ hin
  have h2 : i < s.tm_prepared.length := hs.len_tp ▸ hin
  have hmem := hs.locals i _ _ (List.getElem?_eq_getElem h1) (List.getElem?_eq_getElem h2)
  have hl' : (localsOf n s)[i]? = some l := by
    rw [List.getElem?_eq_getElem hi, hget]
  rw [localsOf_getElem? hin, List.getElem?_eq_getElem h1, List.getElem?_eq_getElem h2] at hl'
  obtain rfl := Option.some_inj.mp hl'
  exact hmem

theorem commit_mem_stateOf_msgs {t : TmState} {locals : List RmLocal} :
    (Message.Commit ∈ (stateOf t locals).msgs) ↔ t = TmState.Committed := by
  simp only [stateOf, Finset.mem_union]
  constructor
  · rintro (h | h)
    · exact absurd h commit_not_mem_prepMsgs
    · exact commit_mem_tmMsgs.mp h
  · intro h
    exact Or.inr (commit_mem_tmMsgs.mpr h)

theorem abort_mem_stateOf_msgs {t : TmState} {locals : List RmLocal} :
    (Message.Abort ∈ (stateOf t locals).msgs) ↔ t = TmState.Aborted := by
  simp only [stateOf, Finset.mem_union]
  constructor
  · rintro (h | h)
    · exact absurd h abort_not_mem_prepMsgs
    · exact abort_mem_tmMsgs.mp h
  · intro h
    exact Or.inr (abort_mem_tmMsgs.mpr h)

theorem shape_eq_stateOf {n : Nat} {s : TwoPhaseState} (hs : Shape n s) :
    s = stateOf s.tm_state (localsOf n s) := by
  apply TwoPhaseState.ext
  · apply List.ext_getElem?
    intro j
    simp only [stateOf, List.getElem?_map]
    by_cases hj : j < n
    · rw [localsOf_getElem? hj]
      have h1 : j < s.rm_state.length := hs.len_rm ▸ hj
      rw [List.getElem?_eq_getElem h1]
      rfl
    · rw [List.getElem?_eq_none (l := localsOf n s) (by rw [localsOf_length]; omega),
        List.getElem?_eq_none (by rw [hs.len_rm]; omega)]
      rfl
  · rfl
  · apply List.ext_getElem?
    intro j
    simp only [stateOf, List.getElem?_map]
    by_cases hj : j < n
    · rw [localsOf_getElem? hj]
      have h2 : j < s.tm_prepared.length := hs.len_tp ▸ hj
      rw [List.getElem?_eq_getElem h2]
      rfl
    · rw [List.getElem?_eq_none (l := localsOf n s) (by rw [localsOf_length]; omega),
        List.getElem?_eq_none (by rw [hs.len_tp]; omega)]
      rfl
  · apply Finset.ext
    intro m
    cases m with
    | Prepared i =>
      rw [prepared_mem_stateOf_msgs]
      constructor
      · intro hm
        rw [localsOf_getElem? (hs.prep_lt i hm)]
        simp [decide_eq_true hm]
      · intro hm
        by_cases hin : i < n
        · rw [localsOf_getElem? hin] at hm
          simp only [Option.map_some'] at hm
          exact of_decide_eq_true (Option.some_inj.mp hm)
        · rw [List.getElem?_eq_none (l := localsOf n s) (by rw [localsOf_length]; omega)] at hm
          cases hm
    | Commit => rw [commit_mem_stateOf_msgs, hs.commit_iff]
    | Abort => rw [abort_mem_stateOf_msgs, hs.abort_iff]

theorem stateOf_inj {t : TmState} {L1 L2 : List RmLocal}
    (h : stateOf t L1 = stateOf t L2) : L1 = L2 := by
  have hst : L1.map RmLocal.st = L2.map RmLocal.st := congrArg TwoPhaseState.rm_state h
  have hpr : L1.map RmLocal.prep = L2.map RmLocal.prep := congrArg TwoPhaseState.tm_prepared h
  have hms := congrArg TwoPhaseState.msgs h
  have hlen : L1.length = L2.length := by
    have := congrArg List.length hst
    simpa using this
  apply List.ext_getElem?
  intro j
  by_cases hj : j < L1.length
  · have hj2 : j < L2.length := hlen ▸ hj
    rw [List.getElem?_eq_getElem hj, List.getElem?_eq_getElem hj2]
    have hstj : some (L1.get ⟨j, hj⟩).st = some (L2.get ⟨j, hj2⟩).st := by
      have := congrArg (fun l => l[j]?) hst
      simpa [List.getElem?_map, List.getElem?_eq_getElem hj,
        List.getElem?_eq_getElem hj2] using this
    have hprj : some (L1.get ⟨j, hj⟩).prep = some (L2.get ⟨j, hj2⟩).prep := by
      have := congrArg (fun l => l[j]?) hpr
      simpa [List.getElem?_map, List.getElem?_eq_getElem hj,
        List.getElem?_eq_getElem hj2] using this
    have hmsj : (L1.get ⟨j, hj⟩).msg = (L2.get ⟨j, hj2⟩).msg := by
      have hm1 := @prepared_mem_stateOf_msgs t L1 j
      have hm2 := @prepared_mem_stateOf_msgs t L2 j
      rw [hms] at hm1
      rw [List.getElem?_eq_getElem hj] at hm1
      rw [List.getElem?_eq_getElem hj2] at hm2
      simp only [Option.map_some', Option.some_inj] at hm1 hm2
      have := hm1.symm.trans hm2
      cases hb1 : (L1.get ⟨j, hj⟩).msg <;> cases hb2 : (L2.get ⟨j, hj2⟩).msg <;> simp_all
    congr 1
    apply RmLocal.ext
    · exact Option.some_inj.mp hstj
    · exact Option.some_inj.mp hprj
    · exact hmsj
  · have hj2 : ¬ j < L2.length := by omega
    rw [List.getElem?_eq_none (by omega), List.getElem?_eq_none (by omega)]

end TwoPC

end Stateright

namespace Stateright

namespace TwoPC

theorem tm_of_mem_block {t : TmState} {n : Nat} {s : TwoPhaseState} {opts : List RmLocal}
    (h : s ∈ (allLists opts n).map (stateOf t)) : s.tm_state = t := by
  obtain ⟨L, _, rfl⟩ := List.mem_map.mp h
  rfl

theorem mem_bigList {n : Nat} {s : TwoPhaseState} :
    s ∈ bigList n ↔ Shape n s := by
  constructor
  · intro h
    simp only [bigList, List.mem_append, List.mem_map] at h
    rcases h with (⟨L, hL, rfl⟩ | ⟨L, hL, rfl⟩) | ⟨L, hL, rfl⟩ <;>
      obtain ⟨hlen, hall⟩ := mem_allLists.mp hL <;>
      exact shape_stateOf hlen hall
  · intro hs
    have heq := shape_eq_stateOf hs
    simp only [bigList, List.mem_append, List.mem_map]
    have hlen := localsOf_length (n := n) (s := s)
    have hall := localsOf_mem_allowed hs
    cases hts : s.tm_state with
    | Init =>
      refine Or.inl (Or.inl ⟨localsOf n s, mem_allLists.mpr ⟨hlen, ?_⟩, ?_⟩)
      · intro x hx
        have := hall x hx
        rw [hts] at this
        exact this
      · rw [hts] at heq
        exact heq.symm
    | Aborted =>
      refine Or.inl (Or.inr ⟨localsOf n s, mem_allLists.mpr ⟨hlen, ?_⟩, ?_⟩)
      · intro x hx
        have := hall x hx
        rw [hts] at this
        exact this
      · rw [hts] at heq
        exact heq.symm
    | Committed =>
      refine Or.inr ⟨localsOf n s, mem_allLists.mpr ⟨hlen, ?_⟩, ?_⟩
      · intro x hx
        have := hall x hx
        rw [hts] at this
        exact this
      · rw [hts] at heq
        exact heq.symm

theorem nodup_block {t : TmState} {n : Nat} {opts : List RmLocal} (h : opts.Nodup) :
    ((allLists opts n).map (stateOf t)).Nodup :=
  (List.nodup_map_iff_inj_on (nodup_allLists h)).mpr
    (fun _ _ _ _ he => stateOf_inj he)

theorem nodup_bigList (n : Nat) : (bigList n).Nodup := by
  rw [bigList]
  have hInit : allowedInit.Nodup := by decide
  have hAborted : allowedAborted.Nodup := by decide
  have hCommitted : allowedCommitted.Nodup := by decide
  refine List.Nodup.append (List.Nodup.append (nodup_block hInit) (nodup_block hAborted) ?_)
    (nodup_block hCommitted) ?_
  · intro a ha hb
    have h1 := tm_of_mem_block ha
    have h2 := tm_of_mem_block hb
    rw [h1] at h2
    cases h2
  · intro a ha hb
    have h2 := tm_of_mem_block hb
    rcases List.mem_append.mp ha with ha | ha
    · have h1 := tm_of_mem_block ha
      rw [h1] at h2
      cases h2
    · have h1 := tm_of_mem_block ha
      rw [h1] at h2
      cases h2

theorem length_bigList (n : Nat) : (bigList n).length = 4 ^ n + 6 ^ n + 2 ^ n := by
  have h1 : allowedInit.length = 4 := rfl
  have h2 : allowedAborted.length = 6 := rfl
  have h3 : allowedCommitted.length = 2 := rfl
  simp only [bigList, List.length_append, List.length_map, length_allLists, h1, h2, h3]

theorem reachable_iff_shape {n : Nat} {s : TwoPhaseState} :
    Reachable (sysN n) s ↔ Shape n s :=
  ⟨reachable_shape, shape_reachable s⟩

theorem generatedStates_eq (n : Nat) :
    generatedStates (sysN n) = ((bigList n).toFinset : Finset TwoPhaseState) := by
  ext s
  simp only [generatedStates, Set.mem_setOf_eq, Finset.coe_sort_coe, Finset.mem_coe,
    List.mem_toFinset]
  exact reachable_iff_shape.trans mem_bigList.symm

theorem ncard_generatedStates (n : Nat) :
    (generatedStates (sysN n)).ncard = 4 ^ n + 6 ^ n + 2 ^ n := by
  rw [generatedStates_eq, Set.ncard_coe_Finset,
    List.toFinset_card_of_nodup (nodup_bigList n), length_bigList]

end TwoPC

end Stateright

namespace Stateright

namespace TwoPC

theorem committed_mem_allowed {t : TmState} {p m : Bool}
    (h : ({ st := RmState.Committed, prep := p, msg := m } : RmLocal) ∈ allowed t) :
    t = TmState.Committed := by
  cases t <;> simp_all [allowed, allowedInit, allowedAborted, allowedCommitted]

theorem aborted_not_mem_allowedCommitted {p m : Bool} :
    ({ st := RmState.Aborted, prep := p, msg := m } : RmLocal) ∉ allowedCommitted := by
  simp [allowedCommitted]

theorem shape_consistent {n : Nat} {s : TwoPhaseState} (hs : Shape n s) :
    consistent s = true := by
  have key : ¬ (RmState.Aborted ∈ s.rm_state ∧ RmState.Committed ∈ s.rm_state) := by
    rintro ⟨hA, hC⟩
    obtain ⟨j, hj, hgetC⟩ := List.mem_iff_getElem.mp hC
    obtain ⟨i, hi, hgetA⟩ := List.mem_iff_getElem.mp hA
    have hjn : j < n := hs.len_rm ▸ hj
    have hin : i < n := hs.len_rm ▸ hi
    have h2 : j < s.tm_prepared.length := hs.len_tp ▸ hjn
    have h2i : i < s.tm_prepared.length := hs.len_tp ▸ hin
    have hmemC := hs.locals j RmState.Committed _
      (by rw [List.getElem?_eq_getElem hj, hgetC]) (List.getElem?_eq_getElem h2)
    have hmemA := hs.locals i RmState.Aborted _
      (by rw [List.getElem?_eq_getElem hi, hgetA]) (List.getElem?_eq_getElem h2i)
    have ht := committed_mem_allowed hmemC
    rw [ht] at hmemA
    exact aborted_not_mem_allowedCommitted hmemA
  unfold consistent
  rw [Bool.not_eq_true']
  rw [List.any_eq_false]
  intro s1 hs1 hinner
  rw [List.any_eq_true] at hinner
  obtain ⟨s2, hs2, hb⟩ := hinner
  rw [Bool.and_eq_true, decide_eq_true_eq, decide_eq_true_eq] at hb
  exact key ⟨hb.1 ▸ hs1, hb.2 ▸ hs2⟩

theorem reachable_all_aborted (n : Nat) :
    ∃ s, Reachable (sysN n) s ∧ s.rm_state = List.replicate n RmState.Aborted := by
  refine ⟨stateOf TmState.Init
    (List.replicate n { st := RmState.Aborted, prep := false, msg := false }), ?_, ?_⟩
  · apply shape_reachable
    apply shape_stateOf (by simp)
    intro l hl
    rw [List.eq_of_mem_replicate hl]
    simp [allowed, allowedInit]
  · simp [stateOf, List.map_replicate]

theorem reachable_all_committed (n : Nat) :
    ∃ s, Reachable (sysN n) s ∧ s.rm_state = List.replicate n RmState.Committed := by
  refine ⟨stateOf TmState.Committed
    (List.replicate n { st := RmState.Committed, prep := true, msg := true }), ?_, ?_⟩
  · apply shape_reachable
    apply shape_stateOf (by simp)
    intro l hl
    rw [List.eq_of_mem_replicate hl]
    simp [allowed, allowedCommitted]
  · simp [stateOf, List.map_replicate]

theorem reachable_msgs_inv {sys : TwoPhaseSys} {s : TwoPhaseState} (h : Reachable sys s) :
    (Message.Commit ∈ s.msgs ↔ s.tm_state = TmState.Committed) ∧
    (Message.Abort ∈ s.msgs ↔ s.tm_state = TmState.Aborted) := by
  induction h with
  | init s hmem =>
    simp only [init_states, List.mem_singleton] at hmem
    subst hmem
    simp [initState]
  | step s s' _ hstep ih =>
    obtain ⟨hc, hb⟩ := ih
    obtain ⟨a, ha, hns⟩ := hstep
    rcases mem_actions.mp ha with ⟨rfl, hInit, _⟩ | ⟨rfl, hInit⟩ | ⟨rm, _, hcase⟩
    · simp only [next_state, PanicOr.ret.injEq, Option.some.injEq] at hns
      subst hns
      refine ⟨by simp, ?_⟩
      simp [Finset.mem_insert, hb, hInit]
    · simp only [next_state, PanicOr.ret.injEq, Option.some.injEq] at hns
      subst hns
      refine ⟨?_, by simp⟩
      simp [Finset.mem_insert, hc, hInit]
    · rcases hcase with ⟨rfl, _, _⟩ | ⟨rfl, _⟩ | ⟨rfl, _⟩ | ⟨rfl, _⟩ | ⟨rfl, _⟩
      · cases hvw : vecWrite s.tm_prepared rm true with
        | none =>
          rw [next_state, hvw] at hns
          cases hns
        | some tp =>
          rw [next_state, hvw] at hns
          simp only [PanicOr.ret.injEq, Option.some.injEq] at hns
          subst hns
          exact ⟨hc, hb⟩
      · cases hvw : vecWrite s.rm_state rm RmState.Prepared with
        | none =>
          rw [next_state, hvw] at hns
          cases hns
        | some rs =>
          rw [next_state, hvw] at hns
          simp only [PanicOr.ret.injEq, Option.some.injEq] at hns
          subst hns
          constructor
          · simpa [Finset.mem_insert] using hc
          · simpa [Finset.mem_insert] using hb
      · cases hvw : vecWrite s.rm_state rm RmState.Aborted with
        | none =>
          rw [next_state, hvw] at hns
          cases hns
        | some rs =>
          rw [next_state, hvw] at hns
          simp only [PanicOr.ret.injEq, Option.some.injEq] at hns
          subst hns
          exact ⟨hc, hb⟩
      · cases hvw : vecWrite s.rm_state rm RmState.Committed with
        | none =>
          rw [next_state, hvw] at hns
          cases hns
        | some rs =>
          rw [next_state, hvw] at hns
          simp only [PanicOr.ret.injEq, Option.some.injEq] at hns
          subst hns
          exact ⟨hc, hb⟩
      · cases hvw : vecWrite s.rm_state rm RmState.Aborted with
        | none =>
          rw [next_state, hvw] at hns
          cases hns
        | some rs =>
          rw [next_state, hvw] at hns
          simp only [PanicOr.ret.injEq, Option.some.injEq] at hns
          subst hns
          exact ⟨hc, hb⟩

theorem next_state_ret_some {sys : TwoPhaseSys} {s : TwoPhaseState} {a : Action}
    (h : actionInBounds s a) :
    ∃ s', next_state sys s a = PanicOr.ret (some s') := by
  cases a with
  | TmRcvPrepared rm =>
    exact ⟨{ s with tm_prepared := s.tm_prepared.set rm true },
      by simp only [next_state, vecWrite_of_lt true h]⟩
  | TmCommit => exact ⟨_, rfl⟩
  | TmAbort => exact ⟨_, rfl⟩
  | RmPrepare rm =>
    exact ⟨{ s with rm_state := s.rm_state.set rm RmState.Prepared,
                    msgs := insert (Message.Prepared rm) s.msgs },
      by simp only [next_state, vecWrite_of_lt RmState.Prepared h]⟩
  | RmChooseToAbort rm =>
    exact ⟨{ s with rm_state := s.rm_state.set rm RmState.Aborted },
      by simp only [next_state, vecWrite_of_lt RmState.Aborted h]⟩
  | RmRcvCommitMsg rm =>
    exact ⟨{ s with rm_state := s.rm_state.set rm RmState.Committed },
      by simp only [next_state, vecWrite_of_lt RmState.Committed h]⟩
  | RmRcvAbortMsg rm =>
    exact ⟨{ s with rm_state := s.rm_state.set rm RmState.Aborted },
      by simp only [next_state, vecWrite_of_lt RmState.Aborted h]⟩

end TwoPC

end Stateright

namespace Stateright

namespace Actor

theorem clockActor_advance_some_iff {Id : Type} (state : Nat) (src : Id) (timestamp : Nat) :
    (∃ r, ClockActor.advance state (ActorInput.Deliver src timestamp) = some r) ↔
      state < timestamp := by
  constructor
  · rintro ⟨r, hr⟩
    by_contra hlt
    simp [ClockActor.advance, hlt] at hr
  · intro hlt
    exact ⟨_, by rw [ClockActor.advance, if_pos hlt]⟩

theorem clockActor_advance_eq {Id : Type} {state : Nat} {src : Id} {timestamp : Nat}
    {r : ActorResult Id Nat Nat}
    (h : ClockActor.advance state (ActorInput.Deliver src timestamp) = some r) :
    r.state = timestamp ∧
      r.outputs.outputs = [ActorOutput.Send src ((timestamp + 1) % u32Mod)] := by
  by_cases hlt : state < timestamp
  · simp only [ClockActor.advance, if_pos hlt, Option.some_inj] at h
    subst h
    exact ⟨rfl, rfl⟩
  · simp [ClockActor.advance, hlt] at h

theorem clockActor_advance_none_iff {Id : Type} (state : Nat) (src : Id) (timestamp : Nat) :
    ClockActor.advance state (ActorInput.Deliver src timestamp) = none ↔
      timestamp ≤ state := by
  by_cases hlt : state < timestamp
  · rw [ClockActor.advance, if_pos hlt]
    constructor
    · intro hc
      cases hc
    · intro hc
      omega
  · rw [ClockActor.advance, if_neg hlt]
    constructor
    · intro _
      omega
    · intro _
      rfl

end Actor

namespace Wire

theorem toDecimalAux_eq (fuel : Nat) : ∀ n : Nat, n ≤ fuel →
    toDecimalAux fuel n = Nat.digits 10 n := by
  induction fuel with
  | zero =>
    intro n h
    obtain rfl : n = 0 := Nat.le_zero.mp h
    simp [toDecimalAux]
  | succ fuel ih =>
    intro n h
    cases n with
    | zero => simp [toDecimalAux]
    | succ m =>
      rw [toDecimalAux, Nat.digits_def' (by norm_num : (1 : ℕ) < 10) (Nat.succ_pos m)]
      congr 1
      apply ih
      have hdiv : (m + 1) / 10 < m + 1 := Nat.div_lt_self (Nat.succ_pos m) (by norm_num)
      omega

theorem toDecimal_eq_digits (n : Nat) : toDecimal n = Nat.digits 10 n :=
  toDecimalAux_eq n n le_rfl

theorem deserialize_serialize (msg : Nat) (h : msg < 2 ^ 32) :
    deserialize (serialize msg) = Except.ok msg := by
  by_cases h0 : msg = 0
  · subst h0
    rfl
  · have hbytes : serialize msg = (Nat.digits 10 msg).reverse.map (fun d => d + 48) := by
      rw [serialize, if_neg h0, toDecimal_eq_digits]
    have hdig : ∀ d ∈ Nat.digits 10 msg, d < 10 := fun d hd =>
      Nat.digits_lt_base (by norm_num) hd
    have hne : Nat.digits 10 msg ≠ [] := Nat.digits_ne_nil_iff_ne_zero.mpr h0
    rw [deserialize, hbytes]
    rw [if_neg ?hnil]
    case hnil =>
      simp only [ne_eq, List.map_eq_nil_iff, List.reverse_eq_nil_iff]
      exact fun hc => hne hc
    rw [if_neg ?hdigits]
    case hdigits =>
      simp only [Bool.not_eq_false]
      apply List.all_eq_true.mpr
      intro b hb
      obtain ⟨d, hd, rfl⟩ := List.mem_map.mp hb
      have := hdig d (List.mem_reverse.mp hd)
      simp only [isDigitByte, Bool.and_eq_true, decide_eq_true_eq]
      omega
    rw [if_neg ?hlead]
    case hlead =>
      rintro ⟨hhead, -⟩
      rw [List.head?_map, List.head?_reverse] at hhead
      obtain ⟨dl, hdl, hdl48⟩ := Option.map_eq_some'.mp hhead
      rw [List.getLast?_eq_getLast _ hne, Option.some_inj] at hdl
      have hgl : (Nat.digits 10 msg).getLast hne ≠ 0 := Nat.getLast_digit_ne_zero 10 h0
      rw [hdl] at hgl
      omega
    have hval : ((((Nat.digits 10 msg).reverse.map (fun d => d + 48)).map
        (fun b => b - 48)).reverse) = Nat.digits 10 msg := by
      rw [List.map_map]
      have : ((fun b => b - 48) ∘ fun d => d + 48) = id := by
        funext d
        simp
      rw [this, List.map_id, List.reverse_reverse]
    simp only [hval, Nat.ofDigits_digits]
    rw [if_pos h]

end Wire

end Stateright

namespace Stateright

namespace Wire

theorem serialize_ofDigits_eq (bytes : List Nat)
    (hnil : bytes ≠ [])
    (hall : ∀ b ∈ bytes, isDigitByte b = true)
    (hone : ¬ bytes.head? = some 48) :
    serialize (Nat.ofDigits 10 ((bytes.map (fun b => b - 48)).reverse)) = bytes := by
  obtain ⟨b0, rest, rfl⟩ := List.exists_cons_of_ne_nil hnil
  have hb0 := hall b0 (List.mem_cons_self b0 rest)
  simp only [isDigitByte, Bool.and_eq_true, decide_eq_true_eq] at hb0
  have hb048 : b0 ≠ 48 := by
    intro hc
    exact hone (by rw [List.head?_cons, hc])
  have hDlt : ∀ d ∈ (((b0 :: rest).map (fun b => b - 48)).reverse), d < 10 := by
    intro d hd
    obtain ⟨b, hb, rfl⟩ := List.mem_map.mp (List.mem_reverse.mp hd)
    have := hall b hb
    simp only [isDigitByte, Bool.and_eq_true, decide_eq_true_eq] at this
    omega
  have hDlast : ∀ h : (((b0 :: rest).map (fun b => b - 48)).reverse) ≠ [],
      (((b0 :: rest).map (fun b => b - 48)).reverse).getLast h ≠ 0 := by
    intro hDne
    have hq := (List.getLast?_eq_getLast _ hDne).symm
    rw [List.getLast?_reverse] at hq
    have hq2 : ((b0 :: rest).map (fun b => b - 48)).head? = some (b0 - 48) := by
      rw [List.map_cons, List.head?_cons]
    rw [hq2] at hq
    have := Option.some_inj.mp hq
    omega
  have hdig := Nat.digits_ofDigits 10 (by norm_num) _ hDlt hDlast
  have hzero : Nat.ofDigits 10 (((b0 :: rest).map (fun b => b - 48)).reverse) ≠ 0 := by
    intro hc
    rw [hc] at hdig
    simp only [Nat.digits_zero] at hdig
    exact absurd hdig.symm (by simp)
  rw [serialize, if_neg hzero, toDecimal_eq_digits, hdig, List.reverse_reverse,
    List.map_map]
  have hmap : ∀ b ∈ (b0 :: rest), ((fun d => d + 48) ∘ fun b => b - 48) b = b := by
    intro b hb
    have := hall b hb
    simp only [isDigitByte, Bool.and_eq_true, decide_eq_true_eq] at this
    simp only [Function.comp_apply]
    omega
  rw [List.map_congr_left hmap, List.map_id']

theorem deserialize_spec (bytes : List Nat) :
    (∃ v, deserialize bytes = Except.ok v ∧ v < 2 ^ 32 ∧ bytes = serialize v) ∨
    (∃ e, deserialize bytes = Except.error e) := by
  rw [deserialize]
  split
  · exact Or.inr ⟨_, rfl⟩
  · split
    · exact Or.inr ⟨_, rfl⟩
    · split
      · exact Or.inr ⟨_, rfl⟩
      · rename_i hnil hdig hlead
        split
        · rename_i hlt
          left
          refine ⟨_, rfl, hlt, ?_⟩
          have hall : ∀ b ∈ bytes, isDigitByte b = true :=
            List.all_eq_true.mp (Bool.not_eq_false _ ▸ Bool.of_not_eq_false hdig)
          by_cases hone : bytes.head? = some 48
          · have hlen : bytes.length = 1 := by
              by_contra hc
              exact hlead ⟨hone, hc⟩
            obtain ⟨b0, rfl⟩ := List.length_eq_one.mp hlen
            obtain rfl : b0 = 48 := Option.some_inj.mp hone
            rfl
          · exact (serialize_ofDigits_eq bytes hnil hall hone).symm
        · exact Or.inr ⟨_, rfl⟩

end Wire

end Stateright

namespace Stateright

open TwoPC Actor Wire

/-- Claim C1: for the two-phase-commit model with resource managers `0..3`, and
likewise `0..5`, every state reachable from the initial state via the
`actions` / `next_state` step relation satisfies the `consistent` predicate:
no resource manager's state is `Aborted` while another's is `Committed`. -/
theorem c1_consistent_always :
    (∀ s, Reachable (sysN 3) s → consistent s = true) ∧
    (∀ s, Reachable (sysN 5) s → consistent s = true) :=
  ⟨fun _ h => shape_consistent (reachable_shape h),
   fun _ h => shape_consistent (reachable_shape h)⟩

theorem c1_consistent_always_witness :
    Reachable (sysN 3) (initState (sysN 3)) ∧ consistent (initState (sysN 3)) = true :=
  ⟨Reachable.init _ (by simp [init_states]),
   c1_consistent_always.1 _ (Reachable.init _ (by simp [init_states]))⟩

/-- Claim C2: for the two-phase-commit model with three resource managers,
exhaustive breadth-first exploration of the state graph, deduplicating equal
states, generates exactly 288 distinct states (the search engine is modelled
from the spec by `generatedStates`, the set of reachable states). -/
theorem c2_bfs_generates_288 : (generatedStates (sysN 3)).ncard = 288 := by
  rw [ncard_generatedStates]
  norm_num

/-- Claim C3: for the two-phase-commit model with five resource managers,
exhaustive depth-first exploration of the state graph generates exactly 8832
distinct states (the search engine is modelled from the spec by
`generatedStates`, the set of reachable states). -/
theorem c3_dfs_generates_8832 : (generatedStates (sysN 5)).ncard = 8832 := by
  rw [ncard_generatedStates]
  norm_num

/-- Claim C4: for the two-phase-commit model with three resource managers, and
likewise five, some reachable state has every resource manager `Aborted`
(witnessing "abort agreement") and some reachable state has every resource
manager `Committed` (witnessing "commit agreement"). -/
theorem c4_agreement_witnessed :
    (∃ s, Reachable (sysN 3) s ∧
      s.rm_state.all (fun r => decide (r = RmState.Aborted)) = true) ∧
    (∃ s, Reachable (sysN 3) s ∧
      s.rm_state.all (fun r => decide (r = RmState.Committed)) = true) ∧
    (∃ s, Reachable (sysN 5) s ∧
      s.rm_state.all (fun r => decide (r = RmState.Aborted)) = true) ∧
    (∃ s, Reachable (sysN 5) s ∧
      s.rm_state.all (fun r => decide (r = RmState.Committed)) = true) := by
  refine ⟨?_, ?_, ?_, ?_⟩
  · obtain ⟨s, hr, hrm⟩ := reachable_all_aborted 3
    refine ⟨s, hr, ?_⟩
    rw [hrm]
    apply List.all_eq_true.mpr
    intro r hrmem
    rw [List.eq_of_mem_replicate hrmem]
    decide
  · obtain ⟨s, hr, hrm⟩ := reachable_all_committed 3
    refine ⟨s, hr, ?_⟩
    rw [hrm]
    apply List.all_eq_true.mpr
    intro r hrmem
    rw [List.eq_of_mem_replicate hrmem]
    decide
  · obtain ⟨s, hr, hrm⟩ := reachable_all_aborted 5
    refine ⟨s, hr, ?_⟩
    rw [hrm]
    apply List.all_eq_true.mpr
    intro r hrmem
    rw [List.eq_of_mem_replicate hrmem]
    decide
  · obtain ⟨s, hr, hrm⟩ := reachable_all_committed 5
    refine ⟨s, hr, ?_⟩
    rw [hrm]
    apply List.all_eq_true.mpr
    intro r hrmem
    rw [List.eq_of_mem_replicate hrmem]
    decide

/-- Claim C5 (amended): in the `ClockActor` documentation example (whose
network is lossy, `LossyNetwork::Yes`, not lossless as the spec says), the
property that every actor state stays below 3 is violated within the bound:
the state with actor states `[3, 2]` is reached by a sequence of THREE
message deliveries (`1→0` msg 1, `0→1` msg 2, `1→0` msg 3); the envelope
`0→1` msg 4 is sent by the third delivery and is still in flight at the
violating state, so only three of the four listed envelopes are delivered. -/
theorem c5_clock_violation :
    ∃ s, SysReachableN clockSys 3 s ∧ 3 ≤ 100 ∧ s.actor_states = [3, 2] ∧
      clockProperty s = false := by
  refine ⟨ActorSystemSnapshot.mk [3, 2] {Envelope.mk 0 1 4}, ?_, by norm_num, rfl, by decide⟩
  have h1 : deliverStep clockSys clockSys.init_state (Envelope.mk 1 0 1) =
      some (ActorSystemSnapshot.mk [1, 0] {Envelope.mk 0 1 2}) := by decide
  have h2 : deliverStep clockSys (ActorSystemSnapshot.mk [1, 0] {Envelope.mk 0 1 2})
      (Envelope.mk 0 1 2) = some (ActorSystemSnapshot.mk [1, 2] {Envelope.mk 1 0 3}) := by
    decide
  have h3 : deliverStep clockSys (ActorSystemSnapshot.mk [1, 2] {Envelope.mk 1 0 3})
      (Envelope.mk 1 0 3) = some (ActorSystemSnapshot.mk [3, 2] {Envelope.mk 0 1 4}) := by
    decide
  exact SysReachableN.deliver 2 _ _ _
    (SysReachableN.deliver 1 _ _ _
      (SysReachableN.deliver 0 _ _ _ SysReachableN.refl h1) h2) h3

/-- Claim C5 counterexample: delivering the four listed envelopes in order
(`1→0` msg 1, `0→1` msg 2, `1→0` msg 3, `0→1` msg 4) ends with actor states
`[3, 4]`, not `[3, 2]` — the violating state is not reached by four message
deliveries. -/
theorem c5_clock_violation_counterexample :
    Option.map (fun s => s.actor_states)
      (Option.bind (Option.bind (Option.bind
        (deliverStep clockSys clockSys.init_state (Envelope.mk 1 0 1))
        (fun s => deliverStep clockSys s (Envelope.mk 0 1 2)))
        (fun s => deliverStep clockSys s (Envelope.mk 1 0 3)))
        (fun s => deliverStep clockSys s (Envelope.mk 0 1 4))) = some [3, 4] ∧
    ([3, 4] : List Nat) ≠ [3, 2] := by
  constructor
  · decide
  · decide

/-- Claim C6 (amended): `ClockActor.advance` on a delivered `timestamp`
returns `Some` exactly when `timestamp > state`; the result's state is the
timestamp and its single output is `Send { dst: src, msg: timestamp + 1 }`
computed in `u32`, i.e. modulo `2 ^ 32` — for `timestamp < u32::MAX` that is
the plain sum `timestamp + 1`; otherwise (`timestamp ≤ state`) it returns
`None` and the delivery is inapplicable. -/
theorem c6_clock_advance (state src timestamp : Nat) (_ht : timestamp < u32Mod) :
    ((∃ r, ClockActor.advance state (ActorInput.Deliver src timestamp) = some r) ↔
      state < timestamp) ∧
    (∀ r, ClockActor.advance state (ActorInput.Deliver src timestamp) = some r →
      r.state = timestamp ∧
        r.outputs.outputs = [ActorOutput.Send src ((timestamp + 1) % u32Mod)]) ∧
    (ClockActor.advance state (ActorInput.Deliver src timestamp) = none ↔
      timestamp ≤ state) ∧
    (timestamp + 1 < u32Mod → (timestamp + 1) % u32Mod = timestamp + 1) :=
  ⟨clockActor_advance_some_iff state src timestamp,
   fun _ h => clockActor_advance_eq h,
   clockActor_advance_none_iff state src timestamp,
   fun h1 => Nat.mod_eq_of_lt h1⟩

theorem c6_clock_advance_witness :
    (1 : Nat) < u32Mod ∧
    (((∃ r, ClockActor.advance 0 (ActorInput.Deliver (7 : Nat) 1) = some r) ↔ 0 < 1) ∧
     (∀ r, ClockActor.advance 0 (ActorInput.Deliver (7 : Nat) 1) = some r →
       r.state = 1 ∧ r.outputs.outputs = [ActorOutput.Send 7 ((1 + 1) % u32Mod)]) ∧
     (ClockActor.advance 0 (ActorInput.Deliver (7 : Nat) 1) = none ↔ 1 ≤ 0) ∧
     (1 + 1 < u32Mod → (1 + 1) % u32Mod = 1 + 1)) :=
  ⟨by decide, c6_clock_advance 0 7 1 (by decide)⟩

/-- Claim C6 counterexample: at `timestamp = u32::MAX = 4294967295` (and
`state = 0`), the `u32` sum `timestamp + 1` wraps to `0`, so the output
message is `0`, not the integer `timestamp + 1 = 4294967296`. -/
theorem c6_clock_advance_counterexample :
    (ClockActor.advance 0 (ActorInput.Deliver (1 : Nat) 4294967295) : Option (ActorResult Nat Nat Nat)) =
      some (ActorResult.mk 4294967295 (ActorOutputVec.mk [ActorOutput.Send 1 0])) ∧
    (ClockActor.advance 0 (ActorInput.Deliver (1 : Nat) 4294967295) : Option (ActorResult Nat Nat Nat)) ≠
      some (ActorResult.mk 4294967295 (ActorOutputVec.mk [ActorOutput.Send 1 4294967296])) := by
  constructor
  · decide
  · decide

/-- Claim C7: round trip of the default actor wire contract (modelled from
the spec for the message type of the repository's example actor, `u32`): for
every `u32` message value, serialization succeeds and deserialization
recovers an equal message. -/
theorem c7_wire_roundtrip (msg : Nat) (h : msg < 2 ^ 32) :
    deserialize (serialize msg) = Except.ok msg :=
  deserialize_serialize msg h

theorem c7_wire_roundtrip_witness :
    (7 : Nat) < 2 ^ 32 ∧ deserialize (serialize 7) = Except.ok 7 :=
  ⟨by decide, c7_wire_roundtrip 7 (by decide)⟩

/-- Claim C8: for every byte sequence, the default `deserialize` returns a
`Result` value — `Ok` exactly on a well-formed encoding (in which case the
bytes are the canonical encoding of the decoded value) and a typed decoding
error otherwise — and never panics (the model is a total function into
`Except`). -/
theorem c8_deserialize_total (bytes : List Nat) :
    (∃ v, deserialize bytes = Except.ok v ∧ v < 2 ^ 32 ∧ bytes = serialize v) ∨
    (∃ e, deserialize bytes = Except.error e) :=
  deserialize_spec bytes

/-- Claim C9: in every reachable state of the two-phase-commit model, for any
`rms` range, `Commit ∈ msgs` iff the transaction manager is `Committed`,
`Abort ∈ msgs` iff it is `Aborted`, and consequently `msgs` never contains
both `Commit` and `Abort`. -/
theorem c9_msgs_invariant (sys : TwoPhaseSys) (s : TwoPhaseState) (h : Reachable sys s) :
    (Message.Commit ∈ s.msgs ↔ s.tm_state = TmState.Committed) ∧
    (Message.Abort ∈ s.msgs ↔ s.tm_state = TmState.Aborted) ∧
    ¬ (Message.Commit ∈ s.msgs ∧ Message.Abort ∈ s.msgs) := by
  obtain ⟨hc, hb⟩ := reachable_msgs_inv h
  refine ⟨hc, hb, ?_⟩
  rintro ⟨h1, h2⟩
  rw [hc] at h1
  rw [hb] at h2
  rw [h1] at h2
  cases h2

theorem c9_msgs_invariant_witness :
    Reachable (TwoPhaseSys.mk (RangeUsize.mk 2 7))
      (initState (TwoPhaseSys.mk (RangeUsize.mk 2 7))) ∧
    ((Message.Commit ∈ (initState (TwoPhaseSys.mk (RangeUsize.mk 2 7))).msgs ↔
        (initState (TwoPhaseSys.mk (RangeUsize.mk 2 7))).tm_state = TmState.Committed) ∧
     (Message.Abort ∈ (initState (TwoPhaseSys.mk (RangeUsize.mk 2 7))).msgs ↔
        (initState (TwoPhaseSys.mk (RangeUsize.mk 2 7))).tm_state = TmState.Aborted) ∧
     ¬ (Message.Commit ∈ (initState (TwoPhaseSys.mk (RangeUsize.mk 2 7))).msgs ∧
        Message.Abort ∈ (initState (TwoPhaseSys.mk (RangeUsize.mk 2 7))).msgs)) :=
  ⟨Reachable.init _ (by simp [init_states]),
   c9_msgs_invariant (TwoPhaseSys.mk (RangeUsize.mk 2 7))
     (initState (TwoPhaseSys.mk (RangeUsize.mk 2 7)))
     (Reachable.init _ (by simp [init_states]))⟩

/-- Claim C10 (amended): `next_state` never returns `None` — for every state
and every action whose resource-manager index is within the bounds of the
state's vectors (in particular for every action enumerated by `actions` on a
reachable state), it returns `Some` successor; for an out-of-bounds index the
`Vec` index write panics instead of returning. -/
theorem c10_next_state_total (sys : TwoPhaseSys) (s : TwoPhaseState) (a : Action)
    (h : actionInBounds s a) :
    ∃ s', next_state sys s a = PanicOr.ret (some s') :=
  next_state_ret_some h

theorem c10_next_state_total_witness :
    actionInBounds (initState (sysN 3)) (Action.TmRcvPrepared 0) ∧
    ∃ s', next_state (sysN 3) (initState (sysN 3)) (Action.TmRcvPrepared 0) =
      PanicOr.ret (some s') :=
  ⟨show (0 : Nat) < (initState (sysN 3)).tm_prepared.length by decide,
   c10_next_state_total (sysN 3) (initState (sysN 3)) (Action.TmRcvPrepared 0)
     (show (0 : Nat) < (initState (sysN 3)).tm_prepared.length by decide)⟩

/-- Claim C10 counterexample: `next_state` with the action
`TmRcvPrepared 5` on the 3-resource-manager initial state panics on the
out-of-bounds vector write `tm_prepared[5] = true` — it does not return a
`Some` successor for every action value. -/
theorem c10_next_state_total_counterexample :
    next_state (sysN 3) (initState (sysN 3)) (Action.TmRcvPrepared 5) = PanicOr.panicked ∧
    ¬ ∃ s', next_state (sysN 3) (initState (sysN 3)) (Action.TmRcvPrepared 5) =
      PanicOr.ret (some s') := by
  refine ⟨by decide, ?_⟩
  rintro ⟨s', hs'⟩
  rw [show next_state (sysN 3) (initState (sysN 3)) (Action.TmRcvPrepared 5) =
    PanicOr.panicked from by decide] at hs'
  cases hs'

end Stateright
